import Mathlib

/-!
Verification of the voxel-grid partition operation
(`pcl::VoxelGridPartition<PointT>::applyPartition` in
`src/smartbot/src/L_SLAM/src/util/voxel_grid_partition.hpp`).

Shallow embedding conventions:
* `float`/`double` coordinates are modelled as exact rationals carrying an
  explicit finiteness flag (`F`).  A non-finite value (NaN/Inf) still carries a
  rational payload; arithmetic on the payload models the machine's unspecified
  result of arithmetic on a non-finite float.
* machine integers are modelled as `Int`/`Nat`; the C++ conversions
  `static_cast<unsigned int>` (signed-to-unsigned, well defined in C++) and
  signed `int` overflow (wrap-around on two's-complement targets) are made
  explicit through `toUInt32Z` (reduction mod 2^32).
* operations whose C++ counterpart has undefined behaviour (out-of-bounds
  `std::vector` subscripts: an invalid point index, the field-descriptor read
  at index -1 when the admission-field lookup fails, an out-of-range
  leaf-layout write) return `none`.
* `pcl::getMinMax3D` (both overloads) is an external collaborator; it is
  embedded following its PCL semantics: min/max corner of the points passing
  the finiteness check (for non-dense clouds) and the optional field filter,
  starting from (+FLT_MAX, -FLT_MAX).
* the dead computation of `centroid_size` / `rgba_index` (lines 132-145 of the
  source, whose results are never used by `applyPartition`) is not modelled.
-/

namespace Voxel

/-- A floating-point scalar: a rational payload plus a finiteness flag.
`pcl_isfinite` inspects the flag; arithmetic uses the payload. -/
structure F where
  val : ℚ
  finite : Bool
deriving DecidableEq, Repr

/-- A point record (`PointT`): three spatial coordinates plus the scalar
fields reachable by field-offset lookup (`fields[i]` is the value of the
i-th named field of the point type). -/
structure PointT where
  x : F
  y : F
  z : F
  fields : List ℚ
deriving DecidableEq, Repr

instance : Inhabited PointT :=
  ⟨⟨⟨0, true⟩, ⟨0, true⟩, ⟨0, true⟩, []⟩⟩

/-- The input cloud (`input_`): point records, the `is_dense` flag, and the
names of the scalar fields of the point type (the field list that
`pcl::getFieldIndex` searches). -/
structure Cloud where
  points : List PointT
  is_dense : Bool
  fieldNames : List String
deriving DecidableEq, Repr

/-- The inherited `VoxelGrid` configuration state used by `applyPartition`. -/
structure Config where
  inv_x : ℚ
  inv_y : ℚ
  inv_z : ℚ
  filter_field_name : String
  filter_limit_lo : ℚ
  filter_limit_hi : ℚ
  filter_limit_negative : Bool
  min_points_per_voxel : ℕ
  save_leaf_layout : Bool
deriving DecidableEq, Repr

/-- The outcome of `applyPartition`: the output clusters `pc_vector`
(each cluster is the list of source-point indices whose records are pushed
into that output sub-cloud, in push order), the `leaf_layout_` member after
the call, and the diagnostic messages emitted. -/
structure PartResult where
  pc : List (List ℕ)
  leaf_layout : List ℤ
  msgs : List String
deriving DecidableEq, Repr

/-- Largest finite `float` (2^128 - 2^104), the FLT_MAX initialiser of the
PCL min/max scan. -/
def FLT_MAX : ℚ := 340282346638528859811704183484516925440

/-- The value `std::numeric_limits<int32_t>::max()`. -/
def INT32_MAX : ℤ := 2147483647

/-- Truncation toward zero: the value of `static_cast<int64_t>(q)` for a
floating value `q` (C++ float-to-integer conversion truncates). -/
def truncQ (q : ℚ) : ℤ := if 0 ≤ q then ⌊q⌋ else ⌈q⌉

/-- The conversion `static_cast<unsigned int>` of a signed integer value: reduction
mod 2^32 (also used for the would-be `int` overflow in the layout-size
product, which wraps on two's-complement targets). -/
def toUInt32Z (z : ℤ) : ℕ := (z % 4294967296).toNat

/-- The check `pcl_isfinite` on all three coordinates of a point. -/
def isFiniteP (p : PointT) : Bool := p.x.finite && p.y.finite && p.z.finite

/-- The lookup `pcl::getFieldIndex`: index of the first field with the given name,
or `none` (the C++ -1). -/
def getFieldIndex (names : List String) (name : String) : Option ℕ :=
  names.findIdx? (· = name)

/-- The point record read by `input_->points[i]` (meaningful when
`i < cloud.points.length`; `applyPartition` yields `none` otherwise). -/
def recOf (cloud : Cloud) (i : ℕ) : PointT := cloud.points.getD i default

/-- The admission-threshold test of source lines 181-191: with
`filter_limit_negative_`, drop the points strictly inside the interval;
otherwise drop the points outside it. -/
def thresholdKeep (cfg : Config) (v : ℚ) : Bool :=
  if cfg.filter_limit_negative then
    !(decide (v < cfg.filter_limit_hi) && decide (cfg.filter_limit_lo < v))
  else
    !(decide (cfg.filter_limit_hi < v) || decide (v < cfg.filter_limit_lo))

/-- One step of the candidate scan shared by the bounding-box pass and the
cell-assignment pass: given the resolved admission-field index `dIdx`,
decide whether point `i` is admitted.  `none` models undefined behaviour:
an invalid point index, or the field read `fields[distance_idx].offset`
performed with a failed lookup (`distance_idx = -1`) or an out-of-range
field index.  Mirrors source lines 165-207 / 216-239. -/
def admitStep (cloud : Cloud) (cfg : Config) (dIdx : Option ℕ) (i : ℕ) :
    Option Bool :=
  match cloud.points.get? i with
  | none => none
  | some p =>
    if !cloud.is_dense && !isFiniteP p then some false
    else if cfg.filter_field_name = "" then some true
    else
      match dIdx with
      | none => none
      | some d =>
        match p.fields.get? d with
        | none => none
        | some v => some (thresholdKeep cfg v)

/-- The scan over `indices_`, collecting the admitted indices in order;
`none` as soon as one step has undefined behaviour. -/
def admitList (cloud : Cloud) (cfg : Config) (dIdx : Option ℕ) :
    List ℕ → Option (List ℕ)
  | [] => some []
  | i :: rest =>
    match admitStep cloud cfg dIdx i with
    | none => none
    | some b =>
      match admitList cloud cfg dIdx rest with
      | none => none
      | some l => some (if b then i :: l else l)

/-- Total admission predicate on a point record (coincides with `admitStep`
whenever the latter is defined). -/
def passRec (dense : Bool) (cfg : Config) (dIdx : Option ℕ) (p : PointT) :
    Bool :=
  if !dense && !isFiniteP p then false
  else if cfg.filter_field_name = "" then true
  else thresholdKeep cfg ((dIdx.bind fun d => p.fields.get? d).getD 0)

/-- Total admission predicate on a point index. -/
def passesB (cloud : Cloud) (cfg : Config) (dIdx : Option ℕ) (i : ℕ) : Bool :=
  passRec cloud.is_dense cfg dIdx (recOf cloud i)

/-- One min/max accumulation step of `pcl::getMinMax3D`. -/
def mmStep (acc : (ℚ × ℚ × ℚ) × (ℚ × ℚ × ℚ)) (p : PointT) :
    (ℚ × ℚ × ℚ) × (ℚ × ℚ × ℚ) :=
  ((min acc.1.1 p.x.val, min acc.1.2.1 p.y.val, min acc.1.2.2 p.z.val),
   (max acc.2.1 p.x.val, max acc.2.2.1 p.y.val, max acc.2.2.2 p.z.val))

/-- Bounding box (`min_p`, `max_p`) of a list of records, from the
FLT_MAX initialisers. -/
def bboxOf (recs : List PointT) : (ℚ × ℚ × ℚ) × (ℚ × ℚ × ℚ) :=
  recs.foldl mmStep
    ((FLT_MAX, FLT_MAX, FLT_MAX), (-FLT_MAX, -FLT_MAX, -FLT_MAX))

/-- The three per-axis candidate division counts of the overflow check:
`static_cast<int64_t>((max_p[a]-min_p[a])*inverse_leaf_size_[a]) + 1`
(source lines 102-107). -/
def dxyzOf (bb : (ℚ × ℚ × ℚ) × (ℚ × ℚ × ℚ)) (cfg : Config) : ℤ × ℤ × ℤ :=
  (truncQ ((bb.2.1 - bb.1.1) * cfg.inv_x) + 1,
   truncQ ((bb.2.2.1 - bb.1.2.1) * cfg.inv_y) + 1,
   truncQ ((bb.2.2.2 - bb.1.2.2) * cfg.inv_z) + 1)

/-- The overflow-check condition of source lines 109-110. -/
def overflowCond (bb : (ℚ × ℚ × ℚ) × (ℚ × ℚ × ℚ)) (cfg : Config) : Bool :=
  let d := dxyzOf bb cfg
  decide (INT32_MAX < d.1 * d.2.1 * d.2.2)

/-- The member `min_b_`: per-axis minimum cell coordinate (source lines 118-123). -/
def minbOf (bb : (ℚ × ℚ × ℚ) × (ℚ × ℚ × ℚ)) (cfg : Config) : ℤ × ℤ × ℤ :=
  (⌊bb.1.1 * cfg.inv_x⌋, ⌊bb.1.2.1 * cfg.inv_y⌋, ⌊bb.1.2.2 * cfg.inv_z⌋)

/-- The member `max_b_`: per-axis maximum cell coordinate. -/
def maxbOf (bb : (ℚ × ℚ × ℚ) × (ℚ × ℚ × ℚ)) (cfg : Config) : ℤ × ℤ × ℤ :=
  (⌊bb.2.1 * cfg.inv_x⌋, ⌊bb.2.2.1 * cfg.inv_y⌋, ⌊bb.2.2.2 * cfg.inv_z⌋)

/-- The divisions `div_b_ = max_b_ - min_b_ + 1` (source line 126). -/
def divbOf (bb : (ℚ × ℚ × ℚ) × (ℚ × ℚ × ℚ)) (cfg : Config) : ℤ × ℤ × ℤ :=
  ((maxbOf bb cfg).1 - (minbOf bb cfg).1 + 1,
   (maxbOf bb cfg).2.1 - (minbOf bb cfg).2.1 + 1,
   (maxbOf bb cfg).2.2 - (minbOf bb cfg).2.2 + 1)

/-- The linear cell index of a point record: `ijk0*divb_mul_[0] +
ijk1*divb_mul_[1] + ijk2*divb_mul_[2]` with `divb_mul_ =
(1, div_b_[0], div_b_[0]*div_b_[1])`, cast to `unsigned int`
(source lines 225-238). -/
def keyOfRec (cfg : Config) (minb divb : ℤ × ℤ × ℤ) (p : PointT) : ℕ :=
  let ijk0 : ℤ := ⌊p.x.val * cfg.inv_x⌋ - minb.1
  let ijk1 : ℤ := ⌊p.y.val * cfg.inv_y⌋ - minb.2.1
  let ijk2 : ℤ := ⌊p.z.val * cfg.inv_z⌋ - minb.2.2
  toUInt32Z (ijk0 * 1 + ijk1 * divb.1 + ijk2 * (divb.1 * divb.2.1))

/-- The `index_vector` of (linear cell index, source point index) pairs. -/
def ivOf (cloud : Cloud) (cfg : Config) (bb : (ℚ × ℚ × ℚ) × (ℚ × ℚ × ℚ))
    (adm : List ℕ) : List (ℕ × ℕ) :=
  adm.map fun i =>
    (keyOfRec cfg (minbOf bb cfg) (divbOf bb cfg) (recOf cloud i), i)

/-- The comparison used by the second-pass sort: `std::less` on
`cloud_point_index_idx`, which orders by the `idx` field. -/
def ivLE (a b : ℕ × ℕ) : Prop := a.1 ≤ b.1

instance : DecidableRel ivLE := fun a b => Nat.decLe a.1 b.1

instance : IsTotal (ℕ × ℕ) ivLE := ⟨fun a b => Nat.le_total a.1 b.1⟩

instance : IsTrans (ℕ × ℕ) ivLE := ⟨fun _ _ _ h1 h2 => Nat.le_trans h1 h2⟩

/-- The sorted `index_vector` (source lines 245-246; `std::sort` is
unstable, the relative order of equal keys is unspecified — the embedding
fixes one order). -/
def sortedIV (iv : List (ℕ × ℕ)) : List (ℕ × ℕ) := List.insertionSort ivLE iv

/-- Third pass, grouping step: the maximal blocks of consecutive entries
sharing one linear cell index (the `[first, last)` ranges delimited by the
while loop of source lines 261-272, before the length test). -/
def groupRuns : List (ℕ × ℕ) → List (List (ℕ × ℕ))
  | [] => []
  | a :: l =>
    match groupRuns l with
    | [] => [[a]]
    | [] :: gs => [a] :: gs
    | (b :: g) :: gs =>
      if a.1 = b.1 then (a :: b :: g) :: gs else [a] :: (b :: g) :: gs

/-- The linear cell index of a run. -/
def gkey (g : List (ℕ × ℕ)) : ℕ := (g.headD (0, 0)).1

/-- The surviving runs: those with `length ≥ min_points_per_voxel_`
(source line 266). -/
def keptRuns (cfg : Config) (iv : List (ℕ × ℕ)) : List (List (ℕ × ℕ)) :=
  (groupRuns (sortedIV iv)).filter fun g => cfg.min_points_per_voxel ≤ g.length

/-- The operation `std::vector::resize(n, v)`: truncate or pad with `v`. -/
def vecResize (l : List ℤ) (n : ℕ) (v : ℤ) : List ℤ :=
  if n ≤ l.length then l.take n else l ++ List.replicate (n - l.length) v

/-- The leaf-layout reset of source lines 279-301: re-initialise the first
`min(new_layout_size, leaf_layout_.size())` surviving entries to -1, then
`resize(new_layout_size, -1)`. -/
def resetLayout (old : List ℤ) (n : ℕ) : List ℤ :=
  vecResize
    (List.replicate (min n old.length) (-1) ++ old.drop (min n old.length))
    n (-1)

/-- The size `new_layout_size = div_b_[0]*div_b_[1]*div_b_[2]` as `uint32_t`
(source line 283). -/
def newLayoutSize (divb : ℤ × ℤ × ℤ) : ℕ :=
  toUInt32Z (divb.1 * divb.2.1 * divb.2.2)

/-- Fourth pass, layout part: for the run at output position `pos`, set
`leaf_layout_[index_vector[first_index].idx] = index` (source lines
316-317); `none` models the out-of-bounds vector write when the run's key
is not below the table size. -/
def writeRuns (save : Bool) : List (List (ℕ × ℕ)) → ℕ → List ℤ →
    Option (List ℤ)
  | [], _, layout => some layout
  | g :: gs, pos, layout =>
    if save then
      if gkey g < layout.length then
        writeRuns save gs (pos + 1) (layout.set (gkey g) (pos : ℤ))
      else none
    else writeRuns save gs (pos + 1) layout

/-- The resolved admission-field index of a run
(`pcl::getFieldIndex(*input_, filter_field_name_, fields)`). -/
def dIdxOf (cloud : Cloud) (cfg : Config) : Option ℕ :=
  getFieldIndex cloud.fieldNames cfg.filter_field_name

/-- Diagnostic of source lines 85-86. -/
def msgNoInput : String :=
  "pcl::VoxelGridPartition::applyFilter No input dataset given!"

/-- Diagnostic of source lines 111-113. -/
def msgOverflow : String :=
  "pcl::applyFilter Leaf size is too small for the input dataset. Integer indices would overflow."

/-- The body of `applyPartition` for a present input cloud: bounding box, overflow
check, assignment, sort, grouping, cluster construction and leaf layout
(source lines 91-321). -/
def applyPartitionSome (cloud : Cloud) (indices : List ℕ) (cfg : Config)
    (layout : List ℤ) : Option PartResult :=
  match admitList cloud cfg (dIdxOf cloud cfg) indices with
  | none => none
  | some adm =>
    let bb := bboxOf (adm.map (recOf cloud))
    if overflowCond bb cfg then some ⟨[], layout, [msgOverflow]⟩
    else
      let kept := keptRuns cfg (ivOf cloud cfg bb adm)
      let layout1 :=
        if cfg.save_leaf_layout then
          resetLayout layout (newLayoutSize (divbOf bb cfg))
        else layout
      match writeRuns cfg.save_leaf_layout kept 0 layout1 with
      | none => none
      | some layout2 => some ⟨kept.map (List.map Prod.snd), layout2, []⟩

/-- The whole of `applyPartition`, including the missing-input early
return of source lines 84-89. -/
def applyPartition : Option Cloud → List ℕ → Config → List ℤ →
    Option PartResult
  | none, _, _, layout => some ⟨[], layout, [msgNoInput]⟩
  | some cloud, indices, cfg, layout =>
    applyPartitionSome cloud indices cfg layout

/-! Derived (total) descriptions of the pipeline stages, used to state the
properties.  They agree with the stages of `applyPartitionSome` whenever the
latter returns a value. -/

/-- The admitted point indices: the candidates passing the finiteness check
and the admission filter. -/
def admittedOf (cloud : Cloud) (indices : List ℕ) (cfg : Config) : List ℕ :=
  indices.filter (passesB cloud cfg (dIdxOf cloud cfg))

/-- The bounding box computed by the run. -/
def bbOf (cloud : Cloud) (indices : List ℕ) (cfg : Config) :
    (ℚ × ℚ × ℚ) × (ℚ × ℚ × ℚ) :=
  bboxOf ((admittedOf cloud indices cfg).map (recOf cloud))

/-- Whether the run takes the overflow early return. -/
def overflowB (cloud : Cloud) (indices : List ℕ) (cfg : Config) : Bool :=
  overflowCond (bbOf cloud indices cfg) cfg

/-- The divisions product `div_b_[0]*div_b_[1]*div_b_[2]` of the run, as an
unbounded integer. -/
def divProdOf (cloud : Cloud) (indices : List ℕ) (cfg : Config) : ℤ :=
  (divbOf (bbOf cloud indices cfg) cfg).1 *
  (divbOf (bbOf cloud indices cfg) cfg).2.1 *
  (divbOf (bbOf cloud indices cfg) cfg).2.2

/-- The linear cell index assigned to source point `i` by the run. -/
def keyOf (cloud : Cloud) (indices : List ℕ) (cfg : Config) (i : ℕ) : ℕ :=
  keyOfRec cfg (minbOf (bbOf cloud indices cfg) cfg)
    (divbOf (bbOf cloud indices cfg) cfg) (recOf cloud i)

/-- The `index_vector` of the run. -/
def ivRun (cloud : Cloud) (indices : List ℕ) (cfg : Config) : List (ℕ × ℕ) :=
  ivOf cloud cfg (bbOf cloud indices cfg) (admittedOf cloud indices cfg)

/-- The sorted `index_vector` of the run. -/
def sortedOf (cloud : Cloud) (indices : List ℕ) (cfg : Config) :
    List (ℕ × ℕ) :=
  sortedIV (ivRun cloud indices cfg)

/-- The maximal constant-key runs of the run. -/
def groupsOf (cloud : Cloud) (indices : List ℕ) (cfg : Config) :
    List (List (ℕ × ℕ)) :=
  groupRuns (sortedOf cloud indices cfg)

/-- The number of admitted points sharing linear cell index `k`. -/
def cntKey (cloud : Cloud) (indices : List ℕ) (cfg : Config) (k : ℕ) : ℕ :=
  (admittedOf cloud indices cfg).countP
    fun j => decide (keyOf cloud indices cfg j = k)

/-- The surviving runs of the run. -/
def keptOf (cloud : Cloud) (indices : List ℕ) (cfg : Config) :
    List (List (ℕ × ℕ)) :=
  keptRuns cfg (ivRun cloud indices cfg)

/-- The linear cell indices of the output clusters, in output order. -/
def keysOf (cloud : Cloud) (indices : List ℕ) (cfg : Config) : List ℕ :=
  (keptOf cloud indices cfg).map gkey

/-- The output clusters (as source-point indices), in output order. -/
def clustersOf (cloud : Cloud) (indices : List ℕ) (cfg : Config) :
    List (List ℕ) :=
  (keptOf cloud indices cfg).map (List.map Prod.snd)

/-- The records pushed into the output sub-clouds. -/
def outputPoints (cloud : Cloud) (pc : List (List ℕ)) : List (List PointT) :=
  pc.map (List.map (recOf cloud))

/-- Index validity of the candidate list. -/
def validIdxB (cloud : Cloud) (indices : List ℕ) : Bool :=
  indices.all (· < cloud.points.length)

/-! Concrete inputs used to instantiate the properties. -/

/-- A finite floating value. -/
def fpQ (q : ℚ) : F := ⟨q, true⟩

/-- A non-finite floating value (NaN); the payload 0 stands for the
machine's unspecified arithmetic result. -/
def fpNaN : F := ⟨0, false⟩

/-- A point with finite coordinates and no scalar fields. -/
def mkPt (a b c : ℚ) : PointT := ⟨fpQ a, fpQ b, fpQ c, []⟩

/-- Unit leaf, no admission filter, `min_points_per_voxel = 1`, no layout. -/
def cfgBase : Config := ⟨1, 1, 1, "", 0, 0, false, 1, false⟩

/-- Configuration `cfgBase` with leaf-layout recording enabled. -/
def cfgC5 : Config := ⟨1, 1, 1, "", 0, 0, false, 1, true⟩

/-- An admission filter naming a field absent from the point type. -/
def cfgC3 : Config := ⟨1, 1, 1, "distance", 0, 10, false, 1, false⟩

/-- Another absent-field admission filter. -/
def cfgC3b : Config := ⟨1, 1, 1, "qq", 0, 10, false, 1, false⟩

/-- Bounding box (-1/2, 0, 0) .. (1289.25, 1289.5, 1289.5) with unit leaf:
the per-axis counts of the overflow check are 1290 each
(1290^3 ≤ INT32_MAX) while the divisions are 1291, 1290, 1290. -/
def cloudC2 : Cloud :=
  ⟨[mkPt (-1/2) 0 0, mkPt (5157/4) (2579/2) (2579/2)], true, []⟩

/-- One finite point whose type has only an `intensity` field. -/
def cloudC3 : Cloud := ⟨[mkPt 0 0 0], true, ["intensity"]⟩

/-- Two finite points with fields `a`, `b`. -/
def cloudC3b : Cloud := ⟨[mkPt 1 2 3, mkPt 4 5 6], true, ["a", "b"]⟩

/-- Bounding box (-1/2)³ .. (1/4, 1/4, 2^30 - 3/4) with unit leaf: the
overflow check sees 1·1·2^30 cells but the divisions are 2·2·(2^30+1),
whose product 2^32+4 wraps to 4 as `uint32_t`. -/
def cloudC5 : Cloud :=
  ⟨[mkPt (-1/2) (-1/2) (-1/2), mkPt (1/4) (1/4) (4294967293/4)], true, []⟩

/-- Three finite points in two unit cells. -/
def cloudW : Cloud :=
  ⟨[mkPt (1/10) (1/10) (1/10), mkPt (51/10) (51/10) (51/10),
    mkPt (26/5) (26/5) (26/5)], true, []⟩

/-- Extent 2^31 on the x axis with unit leaf: the overflow check fires. -/
def cloudW4 : Cloud := ⟨[mkPt 0 0 0, mkPt 2147483648 0 0], true, []⟩

/-- Two finite points in adjacent unit cells. -/
def cloudW5 : Cloud := ⟨[mkPt 0 0 0, mkPt (3/2) 0 0], true, []⟩

/-- A non-dense cloud whose only point has a NaN coordinate. -/
def cloudW6 : Cloud := ⟨[⟨fpNaN, fpQ 0, fpQ 0, []⟩], false, []⟩

/-- A non-dense cloud with one finite point and one NaN point. -/
def cloudW8 : Cloud :=
  ⟨[mkPt 1 1 1, ⟨fpNaN, fpQ 0, fpQ 0, []⟩], false, []⟩

/-- Two finite points, listed in one order... -/
def cloudW9a : Cloud := ⟨[mkPt 0 0 0, mkPt 5 5 5], true, []⟩

/-- Same two points in the swapped order. -/
def cloudW9b : Cloud := ⟨[mkPt 5 5 5, mkPt 0 0 0], true, []⟩

/-- A cloud flagged dense whose only point has a NaN coordinate. -/
def cloudW10 : Cloud := ⟨[⟨fpNaN, fpQ 0, fpQ 0, []⟩], true, []⟩

/-- Readability of the configured admission field: either no field filter,
or the name resolves and every record carries the field. -/
def readOKB (cloud : Cloud) (cfg : Config) : Bool :=
  (cfg.filter_field_name = "") ||
    (match dIdxOf cloud cfg with
     | none => false
     | some d => cloud.points.all fun p => d < p.fields.length)

end Voxel

namespace Voxel

/-! Lemmas about the candidate scan. -/

theorem recOf_eq {cloud : Cloud} {i : ℕ} {p : PointT}
    (hg : cloud.points.get? i = some p) : recOf cloud i = p := by
  rw [recOf, List.getD_eq_getElem?_getD, ← List.get?_eq_getElem?, hg]
  rfl

theorem recOf_mem {cloud : Cloud} {i : ℕ} (h : i < cloud.points.length) :
    recOf cloud i ∈ cloud.points := by
  rw [recOf, List.getD_eq_getElem?_getD, List.getElem?_eq_getElem h]
  exact List.getElem_mem h

theorem admitStep_eq_some {cloud : Cloud} {cfg : Config} {dIdx : Option ℕ}
    {i : ℕ} {b : Bool} (h : admitStep cloud cfg dIdx i = some b) :
    i < cloud.points.length ∧ b = passesB cloud cfg dIdx i := by
  cases hg : cloud.points.get? i with
  | none => simp only [admitStep, hg] at h; exact Option.noConfusion h
  | some p =>
    have hlen : i < cloud.points.length := by
      rcases List.get?_eq_some.mp hg with ⟨hl, _⟩
      exact hl
    refine ⟨hlen, ?_⟩
    simp only [admitStep, hg] at h
    rw [passesB, recOf_eq hg, passRec]
    split at h
    · next hfin => cases h; rw [if_pos hfin]
    · next hfin =>
      split at h
      · next hname => cases h; rw [if_neg hfin, if_pos hname]
      · next hname =>
        rw [if_neg hfin, if_neg hname]
        cases dIdx with
        | none => exact Option.noConfusion h
        | some d =>
          have hf0 := List.get?_eq_getElem? p.fields d
          cases hf : p.fields[d]? with
          | none => simp only [hf0, hf] at h; exact Option.noConfusion h
          | some v =>
            simp only [hf0, hf] at h
            cases h
            simp [hf]

theorem admitList_eq_some {cloud : Cloud} {cfg : Config} {dIdx : Option ℕ} :
    ∀ {l : List ℕ} {adm : List ℕ}, admitList cloud cfg dIdx l = some adm →
      adm = l.filter (passesB cloud cfg dIdx) ∧
        ∀ i ∈ l, i < cloud.points.length := by
  intro l
  induction l with
  | nil =>
    intro adm h
    refine ⟨(Option.some.inj h).symm, by simp⟩
  | cons i rest ih =>
    intro adm h
    rw [admitList] at h
    cases hs : admitStep cloud cfg dIdx i with
    | none => rw [hs] at h; exact absurd h (by simp)
    | some b =>
      rw [hs] at h
      cases hr : admitList cloud cfg dIdx rest with
      | none => rw [hr] at h; exact absurd h (by simp)
      | some l' =>
        rw [hr] at h
        obtain ⟨hlen, hb⟩ := admitStep_eq_some hs
        obtain ⟨hfil, hvalid⟩ := ih hr
        have hadm : adm = if b then i :: l' else l' := (Option.some.inj h).symm
        constructor
        · rw [hadm, hfil, List.filter_cons, ← hb]
        · intro j hj
          rcases List.mem_cons.mp hj with hj | hj
          · exact hj ▸ hlen
          · exact hvalid j hj

theorem admitList_total {cloud : Cloud} {cfg : Config}
    (hread : readOKB cloud cfg = true) :
    ∀ {l : List ℕ}, (∀ i ∈ l, i < cloud.points.length) →
      admitList cloud cfg (dIdxOf cloud cfg) l =
        some (l.filter (passesB cloud cfg (dIdxOf cloud cfg))) := by
  intro l
  induction l with
  | nil => intro _; rfl
  | cons i rest ih =>
    intro hvalid
    have hi : i < cloud.points.length := hvalid i (List.mem_cons_self i rest)
    obtain ⟨p, hg⟩ : ∃ p, cloud.points.get? i = some p := by
      rw [List.get?_eq_getElem?, List.getElem?_eq_getElem hi]
      exact ⟨_, rfl⟩
    have hpm : p ∈ cloud.points := recOf_eq hg ▸ recOf_mem hi
    have hstep : admitStep cloud cfg (dIdxOf cloud cfg) i =
        some (passesB cloud cfg (dIdxOf cloud cfg) i) := by
      simp only [admitStep, hg]
      rw [passesB, recOf_eq hg, passRec]
      split
      · rfl
      · next hfin =>
        split
        · rfl
        · next hname =>
          rw [readOKB] at hread
          have hread2 : (match dIdxOf cloud cfg with
              | none => false
              | some d => cloud.points.all fun p => decide (d < p.fields.length))
              = true := by
            rcases Bool.or_eq_true_iff.mp hread with h1 | h2
            · exact absurd (of_decide_eq_true h1) hname
            · exact h2
          cases hdx : dIdxOf cloud cfg with
          | none => rw [hdx] at hread2; exact absurd hread2 (by simp)
          | some d =>
            rw [hdx] at hread2
            have hdlt : d < p.fields.length :=
              of_decide_eq_true (List.all_eq_true.mp hread2 p hpm)
            obtain ⟨v, hf⟩ : ∃ v, p.fields[d]? = some v := by
              rw [List.getElem?_eq_getElem hdlt]
              exact ⟨_, rfl⟩
            simp [hf]
    rw [admitList, hstep, ih fun j hj => hvalid j (List.mem_cons_of_mem i hj),
      List.filter_cons]

end Voxel

namespace Voxel

/-! Lemmas about the run grouping (third pass). -/

theorem groupRuns_cons_nil {t : List (ℕ × ℕ)} (a : ℕ × ℕ)
    (h : groupRuns t = []) : groupRuns (a :: t) = [[a]] := by
  rw [groupRuns, h]

theorem groupRuns_cons_nilhead {t : List (ℕ × ℕ)} {gs : List (List (ℕ × ℕ))}
    (a : ℕ × ℕ) (h : groupRuns t = [] :: gs) :
    groupRuns (a :: t) = [a] :: gs := by
  rw [groupRuns, h]

theorem groupRuns_cons_cons {t : List (ℕ × ℕ)} {b : ℕ × ℕ}
    {g' : List (ℕ × ℕ)} {gs : List (List (ℕ × ℕ))} (a : ℕ × ℕ)
    (h : groupRuns t = (b :: g') :: gs) :
    groupRuns (a :: t) =
      if a.1 = b.1 then (a :: b :: g') :: gs
      else [a] :: (b :: g') :: gs := by
  rw [groupRuns, h]

theorem groupRuns_flatten : ∀ l : List (ℕ × ℕ), (groupRuns l).flatten = l := by
  intro l
  induction l with
  | nil => rfl
  | cons a t ih =>
    cases hg : groupRuns t with
    | nil =>
      rw [hg] at ih
      simp at ih
      rw [groupRuns_cons_nil a hg]
      simp [← ih]
    | cons g gs =>
      cases g with
      | nil =>
        rw [hg] at ih
        simp at ih
        rw [groupRuns_cons_nilhead a hg]
        simp [← ih]
      | cons b g' =>
        rw [hg] at ih
        rw [groupRuns_cons_cons a hg]
        by_cases hab : a.1 = b.1
        · rw [if_pos hab]
          simp at ih ⊢
          exact ih
        · rw [if_neg hab]
          simp at ih ⊢
          exact ih

theorem groupRuns_ne_nil : ∀ {l : List (ℕ × ℕ)} {g : List (ℕ × ℕ)},
    g ∈ groupRuns l → g ≠ [] := by
  intro l
  induction l with
  | nil => intro g hg; simp [groupRuns] at hg
  | cons a t ih =>
    intro g hg
    cases hgt : groupRuns t with
    | nil =>
      rw [groupRuns_cons_nil a hgt] at hg
      rcases List.mem_singleton.mp hg with rfl
      simp
    | cons g0 gs =>
      cases g0 with
      | nil =>
        rw [groupRuns_cons_nilhead a hgt] at hg
        rcases List.mem_cons.mp hg with rfl | hmem
        · simp
        · exact ih (hgt ▸ List.mem_cons_of_mem _ hmem)
      | cons b g' =>
        rw [groupRuns_cons_cons a hgt] at hg
        by_cases hab : a.1 = b.1
        · rw [if_pos hab] at hg
          rcases List.mem_cons.mp hg with rfl | hmem
          · simp
          · exact ih (hgt ▸ List.mem_cons_of_mem _ hmem)
        · rw [if_neg hab] at hg
          rcases List.mem_cons.mp hg with rfl | hmem
          · simp
          · exact ih (hgt ▸ hmem)

theorem groupRuns_key : ∀ {l : List (ℕ × ℕ)} {g : List (ℕ × ℕ)},
    g ∈ groupRuns l → ∀ x ∈ g, x.1 = gkey g := by
  intro l
  induction l with
  | nil => intro g hg; simp [groupRuns] at hg
  | cons a t ih =>
    intro g hg x hx
    cases hgt : groupRuns t with
    | nil =>
      rw [groupRuns_cons_nil a hgt] at hg
      rcases List.mem_singleton.mp hg with rfl
      rcases List.mem_singleton.mp hx with rfl
      rfl
    | cons g0 gs =>
      cases g0 with
      | nil =>
        rw [groupRuns_cons_nilhead a hgt] at hg
        rcases List.mem_cons.mp hg with rfl | hmem
        · rcases List.mem_singleton.mp hx with rfl; rfl
        · exact ih (hgt ▸ List.mem_cons_of_mem _ hmem) x hx
      | cons b g' =>
        rw [groupRuns_cons_cons a hgt] at hg
        by_cases hab : a.1 = b.1
        · rw [if_pos hab] at hg
          rcases List.mem_cons.mp hg with rfl | hmem
          · rcases List.mem_cons.mp hx with rfl | hx'
            · rfl
            · have hbg : (b :: g') ∈ groupRuns t := hgt ▸ List.mem_cons_self _ _
              have hkey := ih hbg x hx'
              rw [hkey]
              show gkey (b :: g') = gkey (a :: b :: g')
              rw [gkey, gkey]
              simpa using hab.symm
          · exact ih (hgt ▸ List.mem_cons_of_mem _ hmem) x hx
        · rw [if_neg hab] at hg
          rcases List.mem_cons.mp hg with rfl | hmem
          · rcases List.mem_singleton.mp hx with rfl; rfl
          · exact ih (hgt ▸ hmem) x hx

theorem groupRuns_chain : ∀ l : List (ℕ × ℕ),
    List.Chain' (fun g h => gkey g ≠ gkey h) (groupRuns l) := by
  intro l
  induction l with
  | nil => simp [groupRuns]
  | cons a t ih =>
    cases hgt : groupRuns t with
    | nil => rw [groupRuns_cons_nil a hgt]; simp
    | cons g0 gs =>
      cases g0 with
      | nil =>
        exact absurd rfl
          (groupRuns_ne_nil (hgt ▸ List.mem_cons_self ([] : List (ℕ × ℕ)) gs))
      | cons b g' =>
        rw [hgt] at ih
        rw [groupRuns_cons_cons a hgt]
        by_cases hab : a.1 = b.1
        · rw [if_pos hab]
          rcases List.chain'_cons'.mp ih with ⟨hhead, htail⟩
          refine List.chain'_cons'.mpr ⟨?_, htail⟩
          intro y hy
          have hk : gkey (a :: b :: g') = gkey (b :: g') := by
            rw [gkey, gkey]; simp [hab]
          rw [hk]
          exact hhead y hy
        · rw [if_neg hab]
          exact List.chain'_cons.mpr ⟨by rw [gkey, gkey]; simpa using hab, ih⟩

end Voxel

namespace Voxel

/-! Lemmas combining sortedness with the grouping. -/

theorem sortedIV_sorted (iv : List (ℕ × ℕ)) : (sortedIV iv).Sorted ivLE :=
  List.sorted_insertionSort ivLE iv

theorem sortedIV_perm (iv : List (ℕ × ℕ)) : List.Perm (sortedIV iv) iv :=
  List.perm_insertionSort ivLE iv

theorem gkey_mem {g : List (ℕ × ℕ)} (h : g ≠ []) : ∃ x ∈ g, x.1 = gkey g := by
  cases g with
  | nil => exact absurd rfl h
  | cons a g' => exact ⟨a, List.mem_cons_self _ _, rfl⟩

theorem pairwise_flatten_cross {α : Type} {R : α → α → Prop} :
    ∀ {L : List (List α)}, (L.flatten).Pairwise R →
      L.Pairwise (fun g h => ∀ x ∈ g, ∀ y ∈ h, R x y) := by
  intro L
  induction L with
  | nil => intro _; exact List.Pairwise.nil
  | cons g T ih =>
    intro hp
    rw [List.flatten_cons, List.pairwise_append] at hp
    rcases hp with ⟨_, hrest, hcross⟩
    refine List.Pairwise.cons ?_ (ih hrest)
    intro h hh x hx y hy
    exact hcross x hx y (List.mem_flatten.mpr ⟨h, hh, hy⟩)

theorem chain'_lt_of_ne_le : ∀ {l : List (List (ℕ × ℕ))},
    List.Chain' (fun g h => gkey g ≠ gkey h) l →
    List.Chain' (fun g h => gkey g ≤ gkey h) l →
    List.Chain' (fun g h => gkey g < gkey h) l := by
  intro l
  induction l with
  | nil => intro _ _; exact List.chain'_nil
  | cons g T ih =>
    intro hne hle
    cases T with
    | nil => simp
    | cons h T' =>
      rcases List.chain'_cons.mp hne with ⟨hne1, hne2⟩
      rcases List.chain'_cons.mp hle with ⟨hle1, hle2⟩
      exact List.chain'_cons.mpr ⟨lt_of_le_of_ne hle1 hne1, ih hne2 hle2⟩

theorem groups_chain_le {S : List (ℕ × ℕ)} (hs : S.Sorted ivLE) :
    List.Chain' (fun g h => gkey g ≤ gkey h) (groupRuns S) := by
  have hcross : (groupRuns S).Pairwise
      (fun g h => ∀ x ∈ g, ∀ y ∈ h, ivLE x y) := by
    refine pairwise_flatten_cross ?_
    rw [groupRuns_flatten]
    exact hs
  have hp : (groupRuns S).Pairwise (fun g h => gkey g ≤ gkey h) := by
    refine hcross.imp_of_mem ?_
    intro g h hg hh hcr
    obtain ⟨x, hx, hxk⟩ := gkey_mem (groupRuns_ne_nil hg)
    obtain ⟨y, hy, hyk⟩ := gkey_mem (groupRuns_ne_nil hh)
    rw [← hxk, ← hyk]
    exact hcr x hx y hy
  exact hp.chain'

theorem groups_pairwise_lt {S : List (ℕ × ℕ)} (hs : S.Sorted ivLE) :
    (groupRuns S).Pairwise (fun g h => gkey g < gkey h) := by
  haveI : IsTrans (List (ℕ × ℕ)) (fun g h => gkey g < gkey h) :=
    ⟨fun _ _ _ h1 h2 => Nat.lt_trans h1 h2⟩
  exact List.chain'_iff_pairwise.mp
    (chain'_lt_of_ne_le (groupRuns_chain S) (groups_chain_le hs))

theorem flatten_map_filter_unique {L : List (List (ℕ × ℕ))}
    (hpw : L.Pairwise fun g h => gkey g ≠ gkey h)
    (hconst : ∀ g ∈ L, ∀ x ∈ g, x.1 = gkey g) :
    ∀ {g : List (ℕ × ℕ)}, g ∈ L →
      (L.map (List.filter fun x => decide (x.1 = gkey g))).flatten = g := by
  induction L with
  | nil => intro g hg; exact absurd hg (by simp)
  | cons h T ih =>
    intro g hg
    rcases List.pairwise_cons.mp hpw with ⟨hhT, hT⟩
    rcases List.mem_cons.mp hg with rfl | hgT
    · have h1 : g.filter (fun x => decide (x.1 = gkey g)) = g :=
        List.filter_eq_self.mpr fun a ha =>
          decide_eq_true (hconst g (List.mem_cons_self _ _) a ha)
      have h2 : ∀ t ∈ T, t.filter (fun x => decide (x.1 = gkey g)) = [] := by
        intro t ht
        refine List.filter_eq_nil_iff.mpr ?_
        intro a ha hak
        have hat : a.1 = gkey t := hconst t (List.mem_cons_of_mem _ ht) a ha
        exact (hhT t ht) (by rw [← of_decide_eq_true hak, hat])
      rw [List.map_cons, List.flatten_cons, h1]
      have : (T.map (List.filter fun x => decide (x.1 = gkey g))).flatten = [] := by
        rw [List.flatten_eq_nil_iff]
        intro l hl
        rcases List.mem_map.mp hl with ⟨t, ht, rfl⟩
        exact h2 t ht
      rw [this, List.append_nil]
    · have h1 : h.filter (fun x => decide (x.1 = gkey g)) = [] := by
        refine List.filter_eq_nil_iff.mpr ?_
        intro a ha hak
        have hah : a.1 = gkey h := hconst h (List.mem_cons_self _ _) a ha
        exact (hhT g hgT) (by rw [← hah, of_decide_eq_true hak])
      rw [List.map_cons, List.flatten_cons, h1, List.nil_append]
      exact ih hT (fun t ht => hconst t (List.mem_cons_of_mem _ ht)) hgT

theorem group_eq_filter {S : List (ℕ × ℕ)} (hs : S.Sorted ivLE)
    {g : List (ℕ × ℕ)} (hg : g ∈ groupRuns S) :
    g = S.filter fun x => decide (x.1 = gkey g) := by
  have hpw : (groupRuns S).Pairwise (fun g h => gkey g ≠ gkey h) :=
    (groups_pairwise_lt hs).imp fun h => Nat.ne_of_lt h
  conv_lhs => rw [← flatten_map_filter_unique hpw
    (fun g hg => groupRuns_key hg) hg]
  rw [← List.filter_flatten, groupRuns_flatten]

end Voxel

namespace Voxel

/-! Inversion of the pipeline and run membership. -/

theorem ivRun_eq (cloud : Cloud) (indices : List ℕ) (cfg : Config) :
    ivRun cloud indices cfg =
      (admittedOf cloud indices cfg).map
        fun i => (keyOf cloud indices cfg i, i) := rfl

theorem mem_ivRun {cloud : Cloud} {indices : List ℕ} {cfg : Config}
    {x : ℕ × ℕ} (hx : x ∈ ivRun cloud indices cfg) :
    x.2 ∈ admittedOf cloud indices cfg ∧
      x.1 = keyOf cloud indices cfg x.2 := by
  rw [ivRun_eq] at hx
  rcases List.mem_map.mp hx with ⟨i, hi, rfl⟩
  exact ⟨hi, rfl⟩

theorem keptOf_eq (cloud : Cloud) (indices : List ℕ) (cfg : Config) :
    keptOf cloud indices cfg =
      (groupsOf cloud indices cfg).filter
        fun g => decide (cfg.min_points_per_voxel ≤ g.length) := rfl

theorem keptOf_sub {cloud : Cloud} {indices : List ℕ} {cfg : Config}
    {g : List (ℕ × ℕ)} (hg : g ∈ keptOf cloud indices cfg) :
    g ∈ groupsOf cloud indices cfg ∧
      cfg.min_points_per_voxel ≤ g.length := by
  rw [keptOf_eq] at hg
  rcases List.mem_filter.mp hg with ⟨h1, h2⟩
  exact ⟨h1, of_decide_eq_true h2⟩

theorem mem_group_mem_iv {cloud : Cloud} {indices : List ℕ} {cfg : Config}
    {g : List (ℕ × ℕ)} (hg : g ∈ groupsOf cloud indices cfg)
    {x : ℕ × ℕ} (hx : x ∈ g) : x ∈ ivRun cloud indices cfg := by
  have hS : x ∈ sortedOf cloud indices cfg := by
    rw [← groupRuns_flatten (sortedOf cloud indices cfg)]
    exact List.mem_flatten.mpr ⟨g, hg, hx⟩
  exact (sortedIV_perm (ivRun cloud indices cfg)).mem_iff.mp hS

theorem applyPartitionSome_inv {cloud : Cloud} {indices : List ℕ}
    {cfg : Config} {layout : List ℤ} {res : PartResult}
    (h : applyPartitionSome cloud indices cfg layout = some res) :
    (∀ i ∈ indices, i < cloud.points.length) ∧
      ((overflowB cloud indices cfg = true ∧
          res = ⟨[], layout, [msgOverflow]⟩) ∨
        (overflowB cloud indices cfg = false ∧
          res.pc = clustersOf cloud indices cfg ∧
          writeRuns cfg.save_leaf_layout (keptOf cloud indices cfg) 0
            (if cfg.save_leaf_layout then
              resetLayout layout
                (newLayoutSize (divbOf (bbOf cloud indices cfg) cfg))
            else layout) = some res.leaf_layout ∧
          res.msgs = [])) := by
  cases e : admitList cloud cfg (dIdxOf cloud cfg) indices with
  | none => rw [applyPartitionSome, e] at h; exact Option.noConfusion h
  | some adm =>
    obtain ⟨hadm, hvalid⟩ := admitList_eq_some e
    refine ⟨hvalid, ?_⟩
    have hadm' : adm = admittedOf cloud indices cfg := hadm
    subst hadm'
    rw [applyPartitionSome, e] at h
    simp only at h
    rw [show bboxOf (List.map (recOf cloud) (admittedOf cloud indices cfg)) =
      bbOf cloud indices cfg from rfl] at h
    rw [show overflowCond (bbOf cloud indices cfg) cfg =
      overflowB cloud indices cfg from rfl] at h
    rw [show keptRuns cfg (ivOf cloud cfg (bbOf cloud indices cfg)
      (admittedOf cloud indices cfg)) = keptOf cloud indices cfg from rfl] at h
    by_cases hovf : overflowB cloud indices cfg = true
    · rw [if_pos hovf] at h
      exact Or.inl ⟨hovf, (Option.some.inj h).symm⟩
    · rw [if_neg hovf] at h
      cases w : writeRuns cfg.save_leaf_layout (keptOf cloud indices cfg) 0
          (if cfg.save_leaf_layout then
            resetLayout layout
              (newLayoutSize (divbOf (bbOf cloud indices cfg) cfg))
          else layout) with
      | none => rw [w] at h; exact Option.noConfusion h
      | some l2 =>
        rw [w] at h
        rcases (Option.some.inj h).symm with rfl
        refine Or.inr ⟨?_, rfl, ?_, rfl⟩
        · exact Bool.not_eq_true _ ▸ hovf
        · rfl

end Voxel

namespace Voxel

/-! The central counting argument: each admitted point lies in exactly the
clusters whose run carries its cell key, and there is at most one such run. -/

theorem sortedOf_sorted (cloud : Cloud) (indices : List ℕ) (cfg : Config) :
    (sortedOf cloud indices cfg).Sorted ivLE :=
  sortedIV_sorted (ivRun cloud indices cfg)

theorem sortedOf_perm (cloud : Cloud) (indices : List ℕ) (cfg : Config) :
    List.Perm (sortedOf cloud indices cfg) (ivRun cloud indices cfg) :=
  sortedIV_perm (ivRun cloud indices cfg)

theorem countP_key_pairwise (k : ℕ) :
    ∀ {L : List (List (ℕ × ℕ))},
      L.Pairwise (fun g h => gkey g ≠ gkey h) →
      L.countP (fun g => decide (gkey g = k)) ≤ 1 ∧
        (L.countP (fun g => decide (gkey g = k)) = 1 ↔
          ∃ g ∈ L, gkey g = k) := by
  intro L
  induction L with
  | nil => intro _; exact ⟨by simp, by simp⟩
  | cons g T ih =>
    intro hpw
    rcases List.pairwise_cons.mp hpw with ⟨hgT, hT⟩
    rcases ih hT with ⟨ihle, ihiff⟩
    by_cases hk : gkey g = k
    · have hzero : T.countP (fun h => decide (gkey h = k)) = 0 :=
        List.countP_eq_zero.mpr fun t ht hdec =>
          hgT t ht (hk.trans (of_decide_eq_true hdec).symm)
      have hc : (g :: T).countP (fun h => decide (gkey h = k)) = 1 := by
        rw [List.countP_cons, hzero]
        simp [hk]
      rw [hc]
      exact ⟨le_refl 1, fun _ => ⟨g, List.mem_cons_self _ _, hk⟩,
        fun _ => rfl⟩
    · have hc : (g :: T).countP (fun h => decide (gkey h = k)) =
          T.countP (fun h => decide (gkey h = k)) := by
        rw [List.countP_cons]
        simp [hk]
      rw [hc]
      refine ⟨ihle, ihiff.trans ?_⟩
      constructor
      · rintro ⟨g', hg', hk'⟩
        exact ⟨g', List.mem_cons_of_mem _ hg', hk'⟩
      · rintro ⟨g', hg', hk'⟩
        rcases List.mem_cons.mp hg' with rfl | hg''
        · exact absurd hk' hk
        · exact ⟨g', hg'', hk'⟩

theorem sorted_countP_key (cloud : Cloud) (indices : List ℕ) (cfg : Config)
    (k : ℕ) :
    (sortedOf cloud indices cfg).countP (fun x => decide (x.1 = k)) =
      cntKey cloud indices cfg k := by
  rw [(sortedOf_perm cloud indices cfg).countP_eq, ivRun_eq,
    List.countP_map, cntKey]
  rfl

theorem group_length_cntKey {cloud : Cloud} {indices : List ℕ} {cfg : Config}
    {g : List (ℕ × ℕ)} (hg : g ∈ groupsOf cloud indices cfg) :
    g.length = cntKey cloud indices cfg (gkey g) := by
  conv_lhs => rw [group_eq_filter (sortedOf_sorted cloud indices cfg) hg]
  rw [← List.countP_eq_length_filter, sorted_countP_key]

theorem mem_snd_iff {cloud : Cloud} {indices : List ℕ} {cfg : Config}
    {g : List (ℕ × ℕ)} (hg : g ∈ groupsOf cloud indices cfg)
    {i : ℕ} (hi : i ∈ admittedOf cloud indices cfg) :
    i ∈ g.map Prod.snd ↔ gkey g = keyOf cloud indices cfg i := by
  constructor
  · intro hmem
    rcases List.mem_map.mp hmem with ⟨x, hx, rfl⟩
    obtain ⟨_, hxk⟩ := mem_ivRun (mem_group_mem_iv hg hx)
    rw [← hxk]
    exact (groupRuns_key hg x hx).symm
  · intro hk
    have hx : (keyOf cloud indices cfg i, i) ∈ sortedOf cloud indices cfg := by
      refine (sortedOf_perm cloud indices cfg).mem_iff.mpr ?_
      rw [ivRun_eq]
      exact List.mem_map.mpr ⟨i, hi, rfl⟩
    have hxg : (keyOf cloud indices cfg i, i) ∈ g := by
      rw [group_eq_filter (sortedOf_sorted cloud indices cfg) hg]
      refine List.mem_filter.mpr ⟨hx, ?_⟩
      simp [hk]
    exact List.mem_map.mpr ⟨_, hxg, rfl⟩

theorem exists_group_of_admitted {cloud : Cloud} {indices : List ℕ}
    {cfg : Config} {i : ℕ} (hi : i ∈ admittedOf cloud indices cfg) :
    ∃ g ∈ groupsOf cloud indices cfg,
      (keyOf cloud indices cfg i, i) ∈ g ∧
        gkey g = keyOf cloud indices cfg i := by
  have hx : (keyOf cloud indices cfg i, i) ∈ sortedOf cloud indices cfg := by
    refine (sortedOf_perm cloud indices cfg).mem_iff.mpr ?_
    rw [ivRun_eq]
    exact List.mem_map.mpr ⟨i, hi, rfl⟩
  rw [← groupRuns_flatten (sortedOf cloud indices cfg)] at hx
  rcases List.mem_flatten.mp hx with ⟨g, hg, hxg⟩
  exact ⟨g, hg, hxg, (groupRuns_key hg _ hxg).symm⟩

theorem keptOf_pairwise_ne (cloud : Cloud) (indices : List ℕ) (cfg : Config) :
    (keptOf cloud indices cfg).Pairwise fun g h => gkey g ≠ gkey h := by
  have hpw : (groupsOf cloud indices cfg).Pairwise
      (fun g h => gkey g ≠ gkey h) :=
    (groups_pairwise_lt (sortedOf_sorted cloud indices cfg)).imp
      fun h => Nat.ne_of_lt h
  rw [keptOf_eq]
  exact hpw.sublist (List.filter_sublist _)

theorem cluster_countP {cloud : Cloud} {indices : List ℕ} {cfg : Config}
    {i : ℕ} (hi : i ∈ admittedOf cloud indices cfg) :
    (clustersOf cloud indices cfg).countP (fun c => decide (i ∈ c)) =
      if cfg.min_points_per_voxel ≤
          cntKey cloud indices cfg (keyOf cloud indices cfg i)
        then 1 else 0 := by
  rw [clustersOf, List.countP_map]
  have hcongr : (keptOf cloud indices cfg).countP
      ((fun c => decide (i ∈ c)) ∘ List.map Prod.snd) =
      (keptOf cloud indices cfg).countP
        (fun g => decide (gkey g = keyOf cloud indices cfg i)) := by
    refine List.countP_congr ?_
    intro g hg
    have hgG : g ∈ groupsOf cloud indices cfg := (keptOf_sub hg).1
    simp only [Function.comp_apply, decide_eq_true_eq]
    exact mem_snd_iff hgG hi
  rw [hcongr]
  obtain ⟨hle, hiff⟩ := countP_key_pairwise (keyOf cloud indices cfg i)
    (keptOf_pairwise_ne cloud indices cfg)
  have hex : (∃ g ∈ keptOf cloud indices cfg,
      gkey g = keyOf cloud indices cfg i) ↔
      cfg.min_points_per_voxel ≤
        cntKey cloud indices cfg (keyOf cloud indices cfg i) := by
    constructor
    · rintro ⟨g, hg, hk⟩
      obtain ⟨hgG, hlen⟩ := keptOf_sub hg
      rw [← hk, ← group_length_cntKey hgG]
      exact hlen
    · intro hcnt
      obtain ⟨g, hgG, hxg, hk⟩ := exists_group_of_admitted hi
      refine ⟨g, ?_, hk⟩
      rw [keptOf_eq]
      refine List.mem_filter.mpr ⟨hgG, ?_⟩
      refine decide_eq_true ?_
      rw [group_length_cntKey hgG, hk]
      exact hcnt
  by_cases hcnt : cfg.min_points_per_voxel ≤
      cntKey cloud indices cfg (keyOf cloud indices cfg i)
  · rw [if_pos hcnt]
    exact hiff.mpr (hex.mpr hcnt)
  · rw [if_neg hcnt]
    have hne1 : (keptOf cloud indices cfg).countP
        (fun g => decide (gkey g = keyOf cloud indices cfg i)) ≠ 1 :=
      fun h1 => hcnt (hex.mp (hiff.mp h1))
    omega

end Voxel

namespace Voxel

/-! Lemmas about the leaf-layout write pass and the layout reset. -/

theorem writeRuns_false : ∀ (gs : List (List (ℕ × ℕ))) (pos : ℕ)
    (layout : List ℤ), writeRuns false gs pos layout = some layout := by
  intro gs
  induction gs with
  | nil => intro pos layout; rfl
  | cons g T ih =>
    intro pos layout
    rw [writeRuns, if_neg (by simp)]
    exact ih (pos + 1) layout

theorem getD_set_ne {l : List ℤ} {i q : ℕ} {v : ℤ} (h : i ≠ q) :
    (l.set i v).getD q 0 = l.getD q 0 := by
  rw [List.getD_eq_getElem?_getD, List.getD_eq_getElem?_getD,
    List.getElem?_set_ne h]

theorem getD_set_self {l : List ℤ} {i : ℕ} {v : ℤ} (h : i < l.length) :
    (l.set i v).getD i 0 = v := by
  rw [List.getD_eq_getElem?_getD, List.getElem?_set_self h]
  rfl

theorem writeRuns_char :
    ∀ {gs : List (List (ℕ × ℕ))} {pos : ℕ} {layout L : List ℤ},
      gs.Pairwise (fun g h => gkey g ≠ gkey h) →
      writeRuns true gs pos layout = some L →
      L.length = layout.length ∧
        (∀ g ∈ gs, gkey g < layout.length) ∧
        (∀ q : ℕ, (∀ g ∈ gs, gkey g ≠ q) → L.getD q 0 = layout.getD q 0) ∧
        (∀ m : ℕ, m < gs.length →
          L.getD (gkey (gs.getD m [])) 0 = (pos : ℤ) + m) ∧
        (∀ q : ℕ, L.getD q 0 = layout.getD q 0 ∨
          ∃ m : ℕ, m < gs.length ∧ L.getD q 0 = (pos : ℤ) + m) := by
  intro gs
  induction gs with
  | nil =>
    intro pos layout L _ h
    rcases (Option.some.inj h) with rfl
    refine ⟨rfl, by simp, fun q _ => rfl, by simp, fun q => Or.inl rfl⟩
  | cons g T ih =>
    intro pos layout L hpw h
    rcases List.pairwise_cons.mp hpw with ⟨hgT, hT⟩
    rw [writeRuns, if_pos rfl] at h
    by_cases hlt : gkey g < layout.length
    · rw [if_pos hlt] at h
      obtain ⟨ih1, ih2, ih3, ih4, ih5⟩ := ih hT h
      rw [List.length_set] at ih1 ih2
      refine ⟨ih1, ?_, ?_, ?_, ?_⟩
      · intro g' hg'
        rcases List.mem_cons.mp hg' with rfl | hg''
        · exact hlt
        · exact ih2 g' hg''
      · intro q hq
        have hgq : gkey g ≠ q := hq g (List.mem_cons_self _ _)
        rw [ih3 q fun g' hg' => hq g' (List.mem_cons_of_mem _ hg'),
          getD_set_ne hgq]
      · intro m hm
        cases m with
        | zero =>
          have hTg : ∀ g' ∈ T, gkey g' ≠ gkey g :=
            fun g' hg' => (hgT g' hg').symm
          rw [show (g :: T).getD 0 [] = g from rfl,
            ih3 (gkey g) hTg, getD_set_self hlt]
          simp
        | succ m' =>
          have hm' : m' < T.length := Nat.lt_of_succ_lt_succ hm
          have := ih4 m' hm'
          rw [show (g :: T).getD (m' + 1) [] = T.getD m' [] from rfl, this]
          push_cast
          ring
      · intro q
        rcases ih5 q with hsame | ⟨m, hm, hv⟩
        · by_cases hgq : gkey g = q
          · subst hgq
            rw [hsame, getD_set_self hlt]
            exact Or.inr ⟨0, by simp, by simp⟩
          · rw [hsame, getD_set_ne hgq]
            exact Or.inl rfl
        · refine Or.inr ⟨m + 1, by simpa using Nat.succ_lt_succ hm, ?_⟩
          rw [hv]
          push_cast
          ring
    · rw [if_neg hlt] at h
      exact Option.noConfusion h

theorem resetLayout_eq (old : List ℤ) (n : ℕ) :
    resetLayout old n = List.replicate n (-1) := by
  rw [resetLayout, vecResize]
  by_cases h : n ≤ old.length
  · have hmin : min n old.length = n := Nat.min_eq_left h
    rw [hmin]
    have hlen : (List.replicate n (-1 : ℤ) ++ old.drop n).length =
        old.length := by
      simp only [List.length_append, List.length_replicate, List.length_drop]
      omega
    rw [if_pos (by rw [hlen]; exact h)]
    exact List.take_left' (List.length_replicate n (-1 : ℤ))
  · have hlen2 : old.length ≤ n := Nat.le_of_not_le h
    have hmin : min n old.length = old.length := Nat.min_eq_right hlen2
    rw [hmin, List.drop_length, List.append_nil]
    have hlen : (List.replicate old.length (-1 : ℤ)).length = old.length :=
      List.length_replicate _ _
    rw [if_neg (by rw [hlen]; omega), hlen,
      List.append_replicate_replicate]
    congr 1
    omega

end Voxel

namespace Voxel

/-! Totality of the pipeline on valid inputs, and the shape of the output
cluster list. -/

theorem validIdxB_lt {cloud : Cloud} {indices : List ℕ}
    (h : validIdxB cloud indices = true) :
    ∀ i ∈ indices, i < cloud.points.length := by
  intro i hi
  exact of_decide_eq_true (List.all_eq_true.mp h i hi)

theorem applyPartitionSome_total {cloud : Cloud} {indices : List ℕ}
    {cfg : Config} {layout : List ℤ}
    (hvalid : validIdxB cloud indices = true)
    (hread : readOKB cloud cfg = true)
    (hsave : cfg.save_leaf_layout = false) :
    applyPartitionSome cloud indices cfg layout =
      some (if overflowB cloud indices cfg then ⟨[], layout, [msgOverflow]⟩
        else ⟨clustersOf cloud indices cfg, layout, []⟩) := by
  have e : admitList cloud cfg (dIdxOf cloud cfg) indices =
      some (admittedOf cloud indices cfg) :=
    admitList_total hread (validIdxB_lt hvalid)
  rw [applyPartitionSome, e]
  simp only
  rw [show bboxOf (List.map (recOf cloud) (admittedOf cloud indices cfg)) =
    bbOf cloud indices cfg from rfl]
  rw [show overflowCond (bbOf cloud indices cfg) cfg =
    overflowB cloud indices cfg from rfl]
  rw [show keptRuns cfg (ivOf cloud cfg (bbOf cloud indices cfg)
    (admittedOf cloud indices cfg)) = keptOf cloud indices cfg from rfl]
  by_cases hovf : overflowB cloud indices cfg = true
  · rw [if_pos hovf, if_pos hovf]
  · rw [if_neg hovf, if_neg hovf, hsave, if_neg (by simp), writeRuns_false]
    rfl

theorem admittedOf_nil_clusters {cloud : Cloud} {indices : List ℕ}
    {cfg : Config} (h : admittedOf cloud indices cfg = []) :
    clustersOf cloud indices cfg = [] ∧ keptOf cloud indices cfg = [] := by
  have hkept : keptOf cloud indices cfg = [] := by
    rw [keptOf_eq, groupsOf, sortedOf, ivRun_eq, h]
    rfl
  exact ⟨by rw [clustersOf, hkept]; rfl, hkept⟩

theorem mem_cluster_admitted {cloud : Cloud} {indices : List ℕ} {cfg : Config}
    {c : List ℕ} (hc : c ∈ clustersOf cloud indices cfg) {j : ℕ}
    (hj : j ∈ c) : j ∈ admittedOf cloud indices cfg := by
  rw [clustersOf] at hc
  rcases List.mem_map.mp hc with ⟨g, hg, rfl⟩
  rcases List.mem_map.mp hj with ⟨x, hx, rfl⟩
  exact (mem_ivRun (mem_group_mem_iv (keptOf_sub hg).1 hx)).1

theorem keysOf_sorted (cloud : Cloud) (indices : List ℕ) (cfg : Config) :
    (keysOf cloud indices cfg).Sorted (· < ·) := by
  rw [keysOf, List.Sorted]
  refine List.pairwise_map.mpr ?_
  have hpw : (groupsOf cloud indices cfg).Pairwise
      (fun g h => gkey g < gkey h) :=
    groups_pairwise_lt (sortedOf_sorted cloud indices cfg)
  rw [keptOf_eq]
  exact hpw.sublist (List.filter_sublist _)

theorem clustersOf_char (cloud : Cloud) (indices : List ℕ) (cfg : Config) :
    clustersOf cloud indices cfg =
      (keysOf cloud indices cfg).map fun k =>
        ((sortedOf cloud indices cfg).filter
          fun x => decide (x.1 = k)).map Prod.snd := by
  rw [clustersOf, keysOf, List.map_map]
  refine List.map_congr_left ?_
  intro g hg
  have hgG : g ∈ groupsOf cloud indices cfg := (keptOf_sub hg).1
  simp only [Function.comp_apply]
  rw [← group_eq_filter (sortedOf_sorted cloud indices cfg) hgG]

theorem mem_keysOf_iff {cloud : Cloud} {indices : List ℕ} {cfg : Config}
    {k : ℕ} :
    k ∈ keysOf cloud indices cfg ↔
      0 < cntKey cloud indices cfg k ∧
        cfg.min_points_per_voxel ≤ cntKey cloud indices cfg k := by
  constructor
  · intro hk
    rcases List.mem_map.mp hk with ⟨g, hg, rfl⟩
    obtain ⟨hgG, hlen⟩ := keptOf_sub hg
    rw [← group_length_cntKey hgG]
    exact ⟨List.length_pos_of_mem
      ((gkey_mem (groupRuns_ne_nil hgG)).choose_spec.1), hlen⟩
  · rintro ⟨hpos, hmin⟩
    have hx : ∃ x ∈ sortedOf cloud indices cfg, decide (x.1 = k) = true := by
      refine List.countP_pos_iff.mp ?_
      rw [sorted_countP_key]
      exact hpos
    rcases hx with ⟨x, hxS, hxk⟩
    have hxk' : x.1 = k := of_decide_eq_true hxk
    rw [← groupRuns_flatten (sortedOf cloud indices cfg)] at hxS
    rcases List.mem_flatten.mp hxS with ⟨g, hg, hxg⟩
    have hk : gkey g = k := by
      rw [← hxk']
      exact (groupRuns_key hg x hxg).symm
    refine List.mem_map.mpr ⟨g, ?_, hk⟩
    rw [keptOf_eq]
    refine List.mem_filter.mpr ⟨hg, decide_eq_true ?_⟩
    rw [group_length_cntKey hg, hk]
    exact hmin

theorem keysOf_nodup (cloud : Cloud) (indices : List ℕ) (cfg : Config) :
    (keysOf cloud indices cfg).Nodup := by
  rw [List.Nodup, keysOf]
  refine List.pairwise_map.mpr ?_
  exact (keptOf_pairwise_ne cloud indices cfg).imp fun h => h

end Voxel

namespace Voxel

/-! Bounding-box facts. -/

theorem max_right_commQ (u v w : ℚ) : max (max u v) w = max (max u w) v := by
  rw [max_assoc, max_comm v w, ← max_assoc]

theorem mmStep_comm (z : (ℚ × ℚ × ℚ) × (ℚ × ℚ × ℚ)) (a b : PointT) :
    mmStep (mmStep z a) b = mmStep (mmStep z b) a := by
  simp only [mmStep, Prod.mk.injEq]
  exact ⟨⟨min_right_comm _ _ _, min_right_comm _ _ _, min_right_comm _ _ _⟩,
    max_right_commQ _ _ _, max_right_commQ _ _ _, max_right_commQ _ _ _⟩

theorem foldl_mm_le : ∀ (recs : List PointT)
    (acc : (ℚ × ℚ × ℚ) × (ℚ × ℚ × ℚ)),
    (recs.foldl mmStep acc).1.1 ≤ acc.1.1 ∧
      (recs.foldl mmStep acc).1.2.1 ≤ acc.1.2.1 ∧
      (recs.foldl mmStep acc).1.2.2 ≤ acc.1.2.2 ∧
      acc.2.1 ≤ (recs.foldl mmStep acc).2.1 ∧
      acc.2.2.1 ≤ (recs.foldl mmStep acc).2.2.1 ∧
      acc.2.2.2 ≤ (recs.foldl mmStep acc).2.2.2 := by
  intro recs
  induction recs with
  | nil =>
    intro acc
    exact ⟨le_refl _, le_refl _, le_refl _, le_refl _, le_refl _, le_refl _⟩
  | cons r t ih =>
    intro acc
    obtain ⟨h1, h2, h3, h4, h5, h6⟩ := ih (mmStep acc r)
    rw [List.foldl_cons]
    exact ⟨le_trans h1 (min_le_left _ _), le_trans h2 (min_le_left _ _),
      le_trans h3 (min_le_left _ _), le_trans (le_max_left _ _) h4,
      le_trans (le_max_left _ _) h5, le_trans (le_max_left _ _) h6⟩

theorem mem_bbox_bounds : ∀ {recs : List PointT} {p : PointT}, p ∈ recs →
    ∀ acc : (ℚ × ℚ × ℚ) × (ℚ × ℚ × ℚ),
    (recs.foldl mmStep acc).1.1 ≤ p.x.val ∧
      p.x.val ≤ (recs.foldl mmStep acc).2.1 ∧
      (recs.foldl mmStep acc).1.2.1 ≤ p.y.val ∧
      p.y.val ≤ (recs.foldl mmStep acc).2.2.1 ∧
      (recs.foldl mmStep acc).1.2.2 ≤ p.z.val ∧
      p.z.val ≤ (recs.foldl mmStep acc).2.2.2 := by
  intro recs
  induction recs with
  | nil => intro p hp; exact absurd hp (by simp)
  | cons r t ih =>
    intro p hp acc
    rcases List.mem_cons.mp hp with rfl | hpt
    · obtain ⟨h1, h2, h3, h4, h5, h6⟩ := foldl_mm_le t (mmStep acc p)
      rw [List.foldl_cons]
      exact ⟨le_trans h1 (min_le_right _ _), le_trans (le_max_right _ _) h4,
        le_trans h2 (min_le_right _ _), le_trans (le_max_right _ _) h5,
        le_trans h3 (min_le_right _ _), le_trans (le_max_right _ _) h6⟩
    · rw [List.foldl_cons]
      exact ih hpt (mmStep acc r)

theorem divb_pos {cloud : Cloud} {indices : List ℕ} {cfg : Config}
    (hx : 0 < cfg.inv_x) (hy : 0 < cfg.inv_y) (hz : 0 < cfg.inv_z)
    (hne : admittedOf cloud indices cfg ≠ []) :
    1 ≤ (divbOf (bbOf cloud indices cfg) cfg).1 ∧
      1 ≤ (divbOf (bbOf cloud indices cfg) cfg).2.1 ∧
      1 ≤ (divbOf (bbOf cloud indices cfg) cfg).2.2 := by
  obtain ⟨i, hi⟩ := List.exists_mem_of_ne_nil _ hne
  have hp : recOf cloud i ∈ (admittedOf cloud indices cfg).map (recOf cloud) :=
    List.mem_map.mpr ⟨i, hi, rfl⟩
  obtain ⟨h1, h2, h3, h4, h5, h6⟩ := mem_bbox_bounds hp
    ((FLT_MAX, FLT_MAX, FLT_MAX), (-FLT_MAX, -FLT_MAX, -FLT_MAX))
  have hfx : ⌊(bbOf cloud indices cfg).1.1 * cfg.inv_x⌋ ≤
      ⌊(bbOf cloud indices cfg).2.1 * cfg.inv_x⌋ :=
    Int.floor_le_floor (mul_le_mul_of_nonneg_right (le_trans h1 h2) hx.le)
  have hfy : ⌊(bbOf cloud indices cfg).1.2.1 * cfg.inv_y⌋ ≤
      ⌊(bbOf cloud indices cfg).2.2.1 * cfg.inv_y⌋ :=
    Int.floor_le_floor (mul_le_mul_of_nonneg_right (le_trans h3 h4) hy.le)
  have hfz : ⌊(bbOf cloud indices cfg).1.2.2 * cfg.inv_z⌋ ≤
      ⌊(bbOf cloud indices cfg).2.2.2 * cfg.inv_z⌋ :=
    Int.floor_le_floor (mul_le_mul_of_nonneg_right (le_trans h5 h6) hz.le)
  refine ⟨?_, ?_, ?_⟩ <;>
    simp only [divbOf, minbOf, maxbOf] <;> omega

end Voxel

namespace Voxel

/-! Machinery for determinism under permutation of the input points. -/

theorem map_recOf_range (cloud : Cloud) :
    (List.range cloud.points.length).map (recOf cloud) = cloud.points := by
  refine List.ext_getElem (by simp) ?_
  intro i h1 h2
  rw [List.getElem_map, List.getElem_range]
  rw [List.length_map, List.length_range] at h1
  rw [recOf, List.getD_eq_getElem?_getD, List.getElem?_eq_getElem h1]
  rfl

theorem admittedRecs_range (cloud : Cloud) (cfg : Config) :
    (admittedOf cloud (List.range cloud.points.length) cfg).map
        (recOf cloud) =
      cloud.points.filter
        (passRec cloud.is_dense cfg (dIdxOf cloud cfg)) := by
  rw [admittedOf]
  rw [show passesB cloud cfg (dIdxOf cloud cfg) =
    ((passRec cloud.is_dense cfg (dIdxOf cloud cfg)) ∘ (recOf cloud))
    from rfl]
  rw [← List.filter_map, map_recOf_range]

theorem passRec_congr {c1 c2 : Cloud} (cfg : Config)
    (hd : c1.is_dense = c2.is_dense) (hf : c1.fieldNames = c2.fieldNames) :
    passRec c1.is_dense cfg (dIdxOf c1 cfg) =
      passRec c2.is_dense cfg (dIdxOf c2 cfg) := by
  rw [hd, dIdxOf, dIdxOf, hf]

theorem bbOf_perm_eq {c1 c2 : Cloud} {cfg : Config}
    (hp : List.Perm c1.points c2.points)
    (hd : c1.is_dense = c2.is_dense) (hf : c1.fieldNames = c2.fieldNames) :
    bbOf c1 (List.range c1.points.length) cfg =
      bbOf c2 (List.range c2.points.length) cfg := by
  rw [bbOf, bbOf, bboxOf, bboxOf, admittedRecs_range, admittedRecs_range,
    passRec_congr cfg hd hf]
  exact (hp.filter _).foldl_eq' (fun x _ y _ z => mmStep_comm z x y) _

theorem cntKey_records (cloud : Cloud) (cfg : Config) (k : ℕ) :
    cntKey cloud (List.range cloud.points.length) cfg k =
      (cloud.points.filter
          (passRec cloud.is_dense cfg (dIdxOf cloud cfg))).countP
        fun p => decide (keyOfRec cfg
          (minbOf (bbOf cloud (List.range cloud.points.length) cfg) cfg)
          (divbOf (bbOf cloud (List.range cloud.points.length) cfg) cfg)
          p = k) := by
  rw [cntKey, ← admittedRecs_range, List.countP_map]
  rfl

theorem runRecs_to_points (cloud : Cloud) (cfg : Config) (k : ℕ) :
    List.Perm
      (((sortedOf cloud (List.range cloud.points.length) cfg).filter
          fun x => decide (x.1 = k)).map
        fun x => recOf cloud x.2)
      ((cloud.points.filter
          (passRec cloud.is_dense cfg (dIdxOf cloud cfg))).filter
        fun p => decide (keyOfRec cfg
          (minbOf (bbOf cloud (List.range cloud.points.length) cfg) cfg)
          (divbOf (bbOf cloud (List.range cloud.points.length) cfg) cfg)
          p = k)) := by
  have h2 := ((sortedOf_perm cloud (List.range cloud.points.length)
    cfg).filter (fun x => decide (x.1 = k))).map fun x => recOf cloud x.2
  refine h2.trans ?_
  rw [ivRun_eq, List.filter_map, List.map_map]
  rw [show ((fun x : ℕ × ℕ => recOf cloud x.2) ∘
    (fun i => (keyOf cloud (List.range cloud.points.length) cfg i, i))) =
    recOf cloud from rfl]
  rw [show ((fun x : ℕ × ℕ => decide (x.1 = k)) ∘
    (fun i => (keyOf cloud (List.range cloud.points.length) cfg i, i))) =
    ((fun p => decide (keyOfRec cfg
      (minbOf (bbOf cloud (List.range cloud.points.length) cfg) cfg)
      (divbOf (bbOf cloud (List.range cloud.points.length) cfg) cfg)
      p = k)) ∘ (recOf cloud)) from rfl]
  rw [← List.filter_map, admittedRecs_range]

theorem cntKey_perm_eq {c1 c2 : Cloud} {cfg : Config}
    (hp : List.Perm c1.points c2.points)
    (hd : c1.is_dense = c2.is_dense) (hf : c1.fieldNames = c2.fieldNames) :
    ∀ k, cntKey c1 (List.range c1.points.length) cfg k =
      cntKey c2 (List.range c2.points.length) cfg k := by
  intro k
  rw [cntKey_records, cntKey_records, passRec_congr cfg hd hf,
    bbOf_perm_eq hp hd hf]
  exact (hp.filter _).countP_eq _

theorem keysOf_perm_eq {c1 c2 : Cloud} {cfg : Config}
    (hp : List.Perm c1.points c2.points)
    (hd : c1.is_dense = c2.is_dense) (hf : c1.fieldNames = c2.fieldNames) :
    keysOf c1 (List.range c1.points.length) cfg =
      keysOf c2 (List.range c2.points.length) cfg := by
  have hmem : ∀ k, k ∈ keysOf c1 (List.range c1.points.length) cfg ↔
      k ∈ keysOf c2 (List.range c2.points.length) cfg := by
    intro k
    rw [mem_keysOf_iff, mem_keysOf_iff, cntKey_perm_eq hp hd hf]
  have hperm := (List.perm_ext_iff_of_nodup
    (keysOf_nodup c1 (List.range c1.points.length) cfg)
    (keysOf_nodup c2 (List.range c2.points.length) cfg)).mpr hmem
  haveI : IsAntisymm ℕ (· < ·) := IsAsymm.isAntisymm _
  exact List.eq_of_perm_of_sorted hperm
    (keysOf_sorted c1 (List.range c1.points.length) cfg)
    (keysOf_sorted c2 (List.range c2.points.length) cfg)

theorem runRecs_perm_eq {c1 c2 : Cloud} {cfg : Config}
    (hp : List.Perm c1.points c2.points)
    (hd : c1.is_dense = c2.is_dense) (hf : c1.fieldNames = c2.fieldNames)
    (k : ℕ) :
    (↑(((sortedOf c1 (List.range c1.points.length) cfg).filter
        fun x => decide (x.1 = k)).map fun x => recOf c1 x.2) :
      Multiset PointT) =
      ↑(((sortedOf c2 (List.range c2.points.length) cfg).filter
        fun x => decide (x.1 = k)).map fun x => recOf c2 x.2) := by
  refine Multiset.coe_eq_coe.mpr ?_
  refine (runRecs_to_points c1 cfg k).trans ?_
  refine List.Perm.trans ?_ (runRecs_to_points c2 cfg k).symm
  rw [passRec_congr cfg hd hf, bbOf_perm_eq hp hd hf]
  exact (hp.filter _).filter _

end Voxel

namespace Voxel

/-! The claimed properties. -/

theorem admitList_none {cloud : Cloud} {cfg : Config} {dIdx : Option ℕ} :
    ∀ {l : List ℕ} {i : ℕ}, i ∈ l → admitStep cloud cfg dIdx i = none →
      admitList cloud cfg dIdx l = none := by
  intro l
  induction l with
  | nil => intro i hi; exact absurd hi (by simp)
  | cons j rest ih =>
    intro i hi hstep
    rcases List.mem_cons.mp hi with rfl | hmem
    · rw [admitList, hstep]
    · rw [admitList]
      cases hs : admitStep cloud cfg dIdx j with
      | none => rfl
      | some b => rw [ih hmem hstep]

/-- C1: whenever `applyPartition` returns a result and does not take the
overflow early return, every admitted point index occurs in at most one
output cluster, and in exactly one output cluster iff the number of
admitted points sharing its linear cell index reaches
`min_points_per_voxel`; in particular points of shorter runs occur in no
output cluster. -/
theorem partition_admitted_exactly_once
    (cloud : Cloud) (indices : List ℕ) (cfg : Config) (layout : List ℤ)
    (res : PartResult)
    (hres : applyPartition (some cloud) indices cfg layout = some res)
    (hovf : overflowB cloud indices cfg = false)
    (i : ℕ) (hi : i ∈ admittedOf cloud indices cfg) :
    res.pc.countP (fun c => decide (i ∈ c)) ≤ 1 ∧
      (res.pc.countP (fun c => decide (i ∈ c)) = 1 ↔
        cfg.min_points_per_voxel ≤
          cntKey cloud indices cfg (keyOf cloud indices cfg i)) := by
  obtain ⟨_, hcase⟩ := applyPartitionSome_inv hres
  rcases hcase with ⟨hovt, _⟩ | ⟨_, hpc, _, _⟩
  · rw [hovf] at hovt
    exact Bool.noConfusion hovt
  · rw [hpc, cluster_countP hi]
    by_cases hcnt : cfg.min_points_per_voxel ≤
        cntKey cloud indices cfg (keyOf cloud indices cfg i)
    · rw [if_pos hcnt]
      exact ⟨le_refl 1, by simp [hcnt]⟩
    · rw [if_neg hcnt]
      exact ⟨by omega, by simp [hcnt]⟩

unseal Rat.add Rat.mul Rat.inv Rat.sub in
/-- C1, witness: the three-point cloud `cloudW` has point 0 alone in its
cell and points 1, 2 sharing a cell; with `min_points_per_voxel = 1`
point 0 lies in exactly one cluster. -/
theorem partition_admitted_exactly_once_witness :
    (⟨[[0], [1, 2]], [], []⟩ : PartResult).pc.countP
        (fun c => decide (0 ∈ c)) ≤ 1 ∧
      ((⟨[[0], [1, 2]], [], []⟩ : PartResult).pc.countP
          (fun c => decide (0 ∈ c)) = 1 ↔
        cfgBase.min_points_per_voxel ≤
          cntKey cloudW [0, 1, 2] cfgBase (keyOf cloudW [0, 1, 2] cfgBase 0)) :=
  partition_admitted_exactly_once cloudW [0, 1, 2] cfgBase [] _
    (by decide) (by decide) 0 (by decide)

unseal Rat.add Rat.mul Rat.inv Rat.sub in
/-- C2: the overflow check compares `INT32_MAX` against the product of the
extent-based counts `trunc((max-min)*inv)+1`, but the grid divisions are
`floor(max*inv)-floor(min*inv)+1`, which can each exceed that count by
one: on `cloudC2` the check passes while the divisions product is
2148353100 > 2^31-1, so the claimed invariant fails on the code. -/
theorem overflow_check_passes_but_divisions_overflow :
    overflowB cloudC2 [0, 1] cfgBase = false ∧
    divProdOf cloudC2 [0, 1] cfgBase = 2148353100 ∧
    INT32_MAX < divProdOf cloudC2 [0, 1] cfgBase := by
  refine ⟨by decide, by decide, by decide⟩

unseal Rat.add Rat.mul Rat.inv Rat.sub in
/-- C3, counterexample: with an admission-field name that does not resolve
(`distance` against a point type with only `intensity`), the pass reaches
the field read with index -1, an out-of-bounds access; the run has no
well-defined result (modelled as `none`). -/
theorem invalid_field_name_undefined_result :
    applyPartition (some cloudC3) [0] cfgC3 [] = none := by decide

/-- C3, amended: when the admission-field lookup fails, the pass emits a
diagnostic and continues, but then performs the out-of-bounds
field-descriptor read for any candidate point that reaches the admission
read (any valid candidate that is finite or in a dense cloud), so the
result is undefined rather than "as if the field were absent". -/
theorem invalid_field_name_out_of_bounds_read
    (cloud : Cloud) (indices : List ℕ) (cfg : Config) (layout : List ℤ)
    (hname : ¬cfg.filter_field_name = "")
    (hidx : dIdxOf cloud cfg = none)
    (i : ℕ) (hi : i ∈ indices) (hvalid : i < cloud.points.length)
    (hfin : cloud.is_dense = true ∨ isFiniteP (recOf cloud i) = true) :
    applyPartition (some cloud) indices cfg layout = none := by
  obtain ⟨p, hg⟩ : ∃ p, cloud.points.get? i = some p := by
    rw [List.get?_eq_getElem?, List.getElem?_eq_getElem hvalid]
    exact ⟨_, rfl⟩
  have hstep : admitStep cloud cfg (dIdxOf cloud cfg) i = none := by
    simp only [admitStep, hg]
    have hfin' : (!cloud.is_dense && !isFiniteP p) = false := by
      rcases hfin with hfin | hfin
      · rw [hfin]; rfl
      · rw [recOf_eq hg] at hfin
        rw [hfin]
        simp
    rw [if_neg (by rw [hfin']; simp), if_neg hname, hidx]
  show applyPartitionSome cloud indices cfg layout = none
  rw [applyPartitionSome, admitList_none hi hstep]

unseal Rat.add Rat.mul Rat.inv Rat.sub in
/-- C3, amended, witness: a two-point cloud with fields `a`, `b` and the
absent admission field `qq`. -/
theorem invalid_field_name_out_of_bounds_read_witness :
    applyPartition (some cloudC3b) [0, 1] cfgC3b [] = none :=
  invalid_field_name_out_of_bounds_read cloudC3b [0, 1] cfgC3b []
    (by decide) (by decide) 0 (by decide) (by decide) (Or.inl (by decide))

/-- C4: whenever the extent-based cell-count product exceeds `INT32_MAX`,
`applyPartition` returns the empty cluster list together with the
overflow diagnostic, leaving the leaf layout exactly as it was (nothing
proportional to the overflowed count is allocated) and without any
undefined behaviour. -/
theorem overflow_returns_empty
    (cloud : Cloud) (indices : List ℕ) (cfg : Config) (layout : List ℤ)
    (hvalid : validIdxB cloud indices = true)
    (hread : readOKB cloud cfg = true)
    (hovf : overflowB cloud indices cfg = true) :
    applyPartition (some cloud) indices cfg layout =
      some ⟨[], layout, [msgOverflow]⟩ := by
  have e : admitList cloud cfg (dIdxOf cloud cfg) indices =
      some (admittedOf cloud indices cfg) :=
    admitList_total hread (validIdxB_lt hvalid)
  show applyPartitionSome cloud indices cfg layout = _
  rw [applyPartitionSome, e]
  simp only
  rw [show bboxOf (List.map (recOf cloud) (admittedOf cloud indices cfg)) =
    bbOf cloud indices cfg from rfl]
  rw [show overflowCond (bbOf cloud indices cfg) cfg =
    overflowB cloud indices cfg from rfl]
  rw [if_pos hovf]

unseal Rat.add Rat.mul Rat.inv Rat.sub in
/-- C4, witness: an extent of 2^31 unit cells on one axis with a
pre-existing one-entry layout, which is returned untouched. -/
theorem overflow_returns_empty_witness :
    applyPartition (some cloudW4) [0, 1] cfgBase [7] =
      some ⟨[], [7], [msgOverflow]⟩ :=
  overflow_returns_empty cloudW4 [0, 1] cfgBase [7]
    (by decide) (by decide) (by decide)

end Voxel

namespace Voxel

theorem getD_replicate {n q : ℕ} (h : q < n) :
    (List.replicate n (-1 : ℤ)).getD q 0 = -1 := by
  rw [List.getD_eq_getElem?_getD, List.getElem?_replicate, if_pos h]
  rfl

theorem keysOf_getD {cloud : Cloud} {indices : List ℕ} {cfg : Config}
    {p : ℕ} (hp : p < (keptOf cloud indices cfg).length) :
    (keysOf cloud indices cfg).getD p 0 =
      gkey ((keptOf cloud indices cfg).getD p []) := by
  rw [keysOf, List.getD_eq_getElem?_getD, List.getElem?_map,
    List.getElem?_eq_getElem hp]
  rw [List.getD_eq_getElem?_getD, List.getElem?_eq_getElem hp]
  rfl

unseal Rat.add Rat.mul Rat.inv Rat.sub in
/-- C5, counterexample: on `cloudC5` with leaf-layout recording, the
divisions product is 2^32+4, the `uint32_t` size computation wraps to 4,
and the table ends up with 4 entries instead of "exactly
divisions.x*divisions.y*divisions.z entries" as claimed. -/
theorem leaf_layout_size_mismatch :
    applyPartition (some cloudC5) [0, 1] cfgC5 [] =
      some ⟨[[0], [1]], [0, -1, -1, 1], []⟩ ∧
    divProdOf cloudC5 [0, 1] cfgC5 = 4294967300 ∧
    ¬((4 : ℤ) = divProdOf cloudC5 [0, 1] cfgC5) := by
  refine ⟨by decide, by decide, by decide⟩

/-- C5, amended: when leaf-layout recording is enabled, the run does not
take the overflow return, at least one point is admitted, the inverse
leaf sizes are positive, and the divisions product is below 2^32 (so the
`uint32_t` size does not wrap), the table has exactly
divisions.x*divisions.y*divisions.z entries, every entry is -1 or a
valid output-cluster position, the run key of the cluster at position
`p` maps through the table to `p`, and every entry not backed by a
cluster -- including all entries surviving from a previous call -- is
-1. -/
theorem leaf_layout_consistency
    (cloud : Cloud) (indices : List ℕ) (cfg : Config) (layout : List ℤ)
    (res : PartResult)
    (hres : applyPartition (some cloud) indices cfg layout = some res)
    (hovf : overflowB cloud indices cfg = false)
    (hsave : cfg.save_leaf_layout = true)
    (hx : 0 < cfg.inv_x) (hy : 0 < cfg.inv_y) (hz : 0 < cfg.inv_z)
    (hne : admittedOf cloud indices cfg ≠ [])
    (hsize : divProdOf cloud indices cfg < 4294967296) :
    (res.leaf_layout.length : ℤ) = divProdOf cloud indices cfg ∧
      (∀ q : ℕ, q < res.leaf_layout.length →
        res.leaf_layout.getD q 0 = -1 ∨
          ∃ p : ℕ, p < res.pc.length ∧
            res.leaf_layout.getD q 0 = (p : ℤ)) ∧
      (∀ p : ℕ, p < res.pc.length →
        res.leaf_layout.getD ((keysOf cloud indices cfg).getD p 0) 0 =
          (p : ℤ)) ∧
      (∀ q : ℕ, q < res.leaf_layout.length →
        q ∉ keysOf cloud indices cfg → res.leaf_layout.getD q 0 = -1) := by
  obtain ⟨_, hcase⟩ := applyPartitionSome_inv hres
  rcases hcase with ⟨hovt, _⟩ | ⟨_, hpc, hw, _⟩
  · rw [hovf] at hovt
    exact Bool.noConfusion hovt
  · rw [hsave, if_pos rfl, resetLayout_eq] at hw
    obtain ⟨hd1, hd2, hd3⟩ := divb_pos hx hy hz hne
    have hpos : 0 < divProdOf cloud indices cfg := by
      rw [divProdOf]
      exact mul_pos (mul_pos (lt_of_lt_of_le zero_lt_one hd1)
        (lt_of_lt_of_le zero_lt_one hd2)) (lt_of_lt_of_le zero_lt_one hd3)
    have hNval : ((newLayoutSize (divbOf (bbOf cloud indices cfg) cfg)) : ℤ)
        = divProdOf cloud indices cfg := by
      rw [newLayoutSize, toUInt32Z]
      rw [show (divbOf (bbOf cloud indices cfg) cfg).1 *
        (divbOf (bbOf cloud indices cfg) cfg).2.1 *
        (divbOf (bbOf cloud indices cfg) cfg).2.2 =
        divProdOf cloud indices cfg from rfl]
      rw [Int.emod_eq_of_lt (le_of_lt hpos) hsize,
        Int.toNat_of_nonneg (le_of_lt hpos)]
    obtain ⟨hlen, _, huntouched, hwrite, hval⟩ :=
      writeRuns_char (keptOf_pairwise_ne cloud indices cfg) hw
    have hlenN : res.leaf_layout.length =
        newLayoutSize (divbOf (bbOf cloud indices cfg) cfg) := by
      rw [hlen, List.length_replicate]
    have hpclen : res.pc.length = (keptOf cloud indices cfg).length := by
      rw [hpc, clustersOf, List.length_map]
    refine ⟨by rw [hlenN]; exact hNval, ?_, ?_, ?_⟩
    · intro q hq
      rcases hval q with hsame | ⟨m, hm, hv⟩
      · left
        rw [hsame]
        exact getD_replicate (hlenN ▸ hq)
      · right
        refine ⟨m, by rw [hpclen]; exact hm, by rw [hv]; simp⟩
    · intro p hp
      have hp' : p < (keptOf cloud indices cfg).length := hpclen ▸ hp
      rw [keysOf_getD hp']
      exact (hwrite p hp').trans (by simp)
    · intro q hq hqk
      have hkq : ∀ g ∈ keptOf cloud indices cfg, gkey g ≠ q := by
        intro g hg heq
        exact hqk (heq ▸ List.mem_map.mpr ⟨g, hg, rfl⟩)
      rw [huntouched q hkq]
      exact getD_replicate (hlenN ▸ hq)

unseal Rat.add Rat.mul Rat.inv Rat.sub in
/-- C5, amended, witness: two points in adjacent cells, grid 2x1x1, with
a stale one-entry layout from a previous call. -/
theorem leaf_layout_consistency_witness :
    (((⟨[[0], [1]], [0, 1], []⟩ : PartResult).leaf_layout.length : ℤ) =
        divProdOf cloudW5 [0, 1] cfgC5) ∧
      (∀ q : ℕ, q < (⟨[[0], [1]], [0, 1], []⟩ : PartResult).leaf_layout.length →
        (⟨[[0], [1]], [0, 1], []⟩ : PartResult).leaf_layout.getD q 0 = -1 ∨
          ∃ p : ℕ, p < (⟨[[0], [1]], [0, 1], []⟩ : PartResult).pc.length ∧
            (⟨[[0], [1]], [0, 1], []⟩ : PartResult).leaf_layout.getD q 0 =
              (p : ℤ)) ∧
      (∀ p : ℕ, p < (⟨[[0], [1]], [0, 1], []⟩ : PartResult).pc.length →
        (⟨[[0], [1]], [0, 1], []⟩ : PartResult).leaf_layout.getD
          ((keysOf cloudW5 [0, 1] cfgC5).getD p 0) 0 = (p : ℤ)) ∧
      (∀ q : ℕ, q < (⟨[[0], [1]], [0, 1], []⟩ : PartResult).leaf_layout.length →
        q ∉ keysOf cloudW5 [0, 1] cfgC5 →
        (⟨[[0], [1]], [0, 1], []⟩ : PartResult).leaf_layout.getD q 0 = -1) :=
  leaf_layout_consistency cloudW5 [0, 1] cfgC5 [7] _
    (by decide) (by decide) (by decide) (by decide) (by decide) (by decide)
    (by decide) (by decide)

/-- C6: with no input cloud, `applyPartition` returns the empty cluster
list plus the no-input diagnostic; with an input whose candidate set is
empty after the finiteness and admission filtering (and a readable
configuration), it returns a result with an empty cluster list, without
any undefined behaviour. -/
theorem empty_result_cases :
    (∀ (indices : List ℕ) (cfg : Config) (layout : List ℤ),
      applyPartition none indices cfg layout =
        some ⟨[], layout, [msgNoInput]⟩) ∧
    (∀ (cloud : Cloud) (indices : List ℕ) (cfg : Config) (layout : List ℤ),
      validIdxB cloud indices = true → readOKB cloud cfg = true →
      admittedOf cloud indices cfg = [] →
      ∃ res, applyPartition (some cloud) indices cfg layout = some res ∧
        res.pc = []) := by
  constructor
  · intro indices cfg layout
    rfl
  · intro cloud indices cfg layout hvalid hread hadm
    have e : admitList cloud cfg (dIdxOf cloud cfg) indices =
        some (admittedOf cloud indices cfg) :=
      admitList_total hread (validIdxB_lt hvalid)
    rw [hadm] at e
    have hkept : keptRuns cfg (ivOf cloud cfg
        (bboxOf (List.map (recOf cloud) ([] : List ℕ))) []) = [] := rfl
    show ∃ res, applyPartitionSome cloud indices cfg layout = some res ∧
      res.pc = []
    rw [applyPartitionSome, e]
    simp only
    by_cases hovf : overflowCond
        (bboxOf (List.map (recOf cloud) ([] : List ℕ))) cfg = true
    · rw [if_pos hovf]
      exact ⟨_, rfl, rfl⟩
    · rw [if_neg hovf, hkept]
      refine ⟨⟨[], if cfg.save_leaf_layout then
        resetLayout layout (newLayoutSize (divbOf
          (bboxOf (List.map (recOf cloud) ([] : List ℕ))) cfg))
        else layout, []⟩, ?_, rfl⟩
      rfl

unseal Rat.add Rat.mul Rat.inv Rat.sub in
/-- C6, witness: the no-input case with a stale layout, and a non-dense
cloud whose single NaN point leaves the candidate set empty. -/
theorem empty_result_cases_witness :
    applyPartition none [0] cfgBase [5] = some ⟨[], [5], [msgNoInput]⟩ ∧
    ∃ res, applyPartition (some cloudW6) [0] cfgBase [] = some res ∧
      res.pc = [] :=
  ⟨empty_result_cases.1 [0] cfgBase [5],
    empty_result_cases.2 cloudW6 [0] cfgBase []
      (by decide) (by decide) (by decide)⟩

/-- C7: on a run that returns a result without taking the overflow
return, the output clusters are ordered by strictly ascending linear
cell index; the cluster for key `k` is exactly the run of sorted
`index_vector` entries with key `k`, its points in run order; and every
output point record is one of the input records, copied verbatim. -/
theorem clusters_sorted_and_verbatim
    (cloud : Cloud) (indices : List ℕ) (cfg : Config) (layout : List ℤ)
    (res : PartResult)
    (hres : applyPartition (some cloud) indices cfg layout = some res)
    (hovf : overflowB cloud indices cfg = false) :
    (keysOf cloud indices cfg).Sorted (· < ·) ∧
      res.pc = (keysOf cloud indices cfg).map (fun k =>
        ((sortedOf cloud indices cfg).filter
          fun x => decide (x.1 = k)).map Prod.snd) ∧
      (∀ c ∈ outputPoints cloud res.pc, ∀ p ∈ c, p ∈ cloud.points) := by
  obtain ⟨hvalid, hcase⟩ := applyPartitionSome_inv hres
  rcases hcase with ⟨hovt, _⟩ | ⟨_, hpc, _, _⟩
  · rw [hovf] at hovt
    exact Bool.noConfusion hovt
  · refine ⟨keysOf_sorted cloud indices cfg,
      by rw [hpc, clustersOf_char], ?_⟩
    intro c hc p hp
    rcases List.mem_map.mp hc with ⟨c', hc', rfl⟩
    rcases List.mem_map.mp hp with ⟨j, hj, rfl⟩
    have hjadm : j ∈ admittedOf cloud indices cfg :=
      mem_cluster_admitted (hpc ▸ hc') hj
    have hjidx : j ∈ indices := List.mem_of_mem_filter hjadm
    exact recOf_mem (hvalid j hjidx)

unseal Rat.add Rat.mul Rat.inv Rat.sub in
/-- C7, witness: on `cloudW` the two clusters come in ascending cell-key
order and copy the input records. -/
theorem clusters_sorted_and_verbatim_witness :
    (keysOf cloudW [0, 1, 2] cfgBase).Sorted (· < ·) ∧
      (⟨[[0], [1, 2]], [], []⟩ : PartResult).pc =
        (keysOf cloudW [0, 1, 2] cfgBase).map (fun k =>
          ((sortedOf cloudW [0, 1, 2] cfgBase).filter
            fun x => decide (x.1 = k)).map Prod.snd) ∧
      (∀ c ∈ outputPoints cloudW
          (⟨[[0], [1, 2]], [], []⟩ : PartResult).pc,
        ∀ p ∈ c, p ∈ cloudW.points) :=
  clusters_sorted_and_verbatim cloudW [0, 1, 2] cfgBase [] _
    (by decide) (by decide)

/-- C8: in a non-dense cloud, a point with a non-finite coordinate is
skipped by the candidate scan -- the scan itself (shared by the
bounding-box and assignment passes) completes without undefined
behaviour on a valid configuration -- and the point's index occurs in no
output cluster of any returned result. -/
theorem nonfinite_point_skipped
    (cloud : Cloud) (indices : List ℕ) (cfg : Config) (layout : List ℤ)
    (j : ℕ)
    (hdense : cloud.is_dense = false)
    (hvalid : validIdxB cloud indices = true)
    (hread : readOKB cloud cfg = true)
    (hnf : isFiniteP (recOf cloud j) = false) :
    (∃ adm, admitList cloud cfg (dIdxOf cloud cfg) indices = some adm ∧
      j ∉ adm) ∧
    (∀ res, applyPartition (some cloud) indices cfg layout = some res →
      ∀ c ∈ res.pc, j ∉ c) := by
  have hpass : passesB cloud cfg (dIdxOf cloud cfg) j = false := by
    rw [passesB, passRec, hdense, hnf]
    rfl
  constructor
  · refine ⟨admittedOf cloud indices cfg,
      admitList_total hread (validIdxB_lt hvalid), ?_⟩
    intro hj
    have := (List.mem_filter.mp hj).2
    rw [hpass] at this
    exact Bool.noConfusion this
  · intro res hres c hc hj
    obtain ⟨_, hcase⟩ := applyPartitionSome_inv hres
    rcases hcase with ⟨_, hr⟩ | ⟨_, hpc, _, _⟩
    · rw [hr] at hc
      exact absurd hc (by simp)
    · have hjadm : j ∈ admittedOf cloud indices cfg :=
        mem_cluster_admitted (hpc ▸ hc) hj
      have := (List.mem_filter.mp hjadm).2
      rw [hpass] at this
      exact Bool.noConfusion this

unseal Rat.add Rat.mul Rat.inv Rat.sub in
/-- C8, witness: a non-dense two-point cloud whose second point has a NaN
coordinate. -/
theorem nonfinite_point_skipped_witness :
    (∃ adm, admitList cloudW8 cfgBase (dIdxOf cloudW8 cfgBase) [0, 1] =
      some adm ∧ 1 ∉ adm) ∧
    (∀ res, applyPartition (some cloudW8) [0, 1] cfgBase [] = some res →
      ∀ c ∈ res.pc, 1 ∉ c) :=
  nonfinite_point_skipped cloudW8 [0, 1] cfgBase [] 1
    (by decide) (by decide) (by decide) (by decide)

end Voxel

namespace Voxel

/-- C9: for two full clouds holding the same multiset of point records
(same flags, same field layout, same configuration), any two successful
runs produce the same surviving cell keys in the same order, and
position by position the same multiset of point records per cluster;
only the order of points inside a cluster may differ. -/
theorem permutation_determinism
    (c1 c2 : Cloud) (cfg : Config) (l1 l2 : List ℤ) (r1 r2 : PartResult)
    (hp : List.Perm c1.points c2.points)
    (hd : c1.is_dense = c2.is_dense) (hf : c1.fieldNames = c2.fieldNames)
    (h1 : applyPartition (some c1) (List.range c1.points.length) cfg l1 =
      some r1)
    (h2 : applyPartition (some c2) (List.range c2.points.length) cfg l2 =
      some r2) :
    keysOf c1 (List.range c1.points.length) cfg =
      keysOf c2 (List.range c2.points.length) cfg ∧
    r1.pc.map (fun c => ((c.map (recOf c1) : List PointT) : Multiset PointT))
      = r2.pc.map
        (fun c => ((c.map (recOf c2) : List PointT) : Multiset PointT)) := by
  refine ⟨keysOf_perm_eq hp hd hf, ?_⟩
  obtain ⟨_, hc1⟩ := applyPartitionSome_inv h1
  obtain ⟨_, hc2⟩ := applyPartitionSome_inv h2
  have hovf_eq : overflowB c1 (List.range c1.points.length) cfg =
      overflowB c2 (List.range c2.points.length) cfg := by
    rw [show overflowB c1 (List.range c1.points.length) cfg =
      overflowCond (bbOf c1 (List.range c1.points.length) cfg) cfg from rfl]
    rw [show overflowB c2 (List.range c2.points.length) cfg =
      overflowCond (bbOf c2 (List.range c2.points.length) cfg) cfg from rfl]
    rw [bbOf_perm_eq hp hd hf]
  rcases hc1 with ⟨ho1, hr1⟩ | ⟨ho1, hpc1, _, _⟩ <;>
    rcases hc2 with ⟨ho2, hr2⟩ | ⟨ho2, hpc2, _, _⟩
  · rw [hr1, hr2]
    rfl
  · rw [ho1, ho2] at hovf_eq
    exact Bool.noConfusion hovf_eq
  · rw [ho1, ho2] at hovf_eq
    exact Bool.noConfusion hovf_eq
  · rw [hpc1, hpc2, clustersOf_char, clustersOf_char,
      keysOf_perm_eq hp hd hf, List.map_map, List.map_map]
    refine List.map_congr_left ?_
    intro k hk
    simp only [Function.comp_apply]
    rw [List.map_map, List.map_map]
    rw [show recOf c1 ∘ Prod.snd =
      (fun x : ℕ × ℕ => recOf c1 x.2) from rfl]
    rw [show recOf c2 ∘ Prod.snd =
      (fun x : ℕ × ℕ => recOf c2 x.2) from rfl]
    exact runRecs_perm_eq hp hd hf k

unseal Rat.add Rat.mul Rat.inv Rat.sub in
/-- C9, witness: the same two points listed in the two possible orders. -/
theorem permutation_determinism_witness :
    keysOf cloudW9a (List.range cloudW9a.points.length) cfgBase =
      keysOf cloudW9b (List.range cloudW9b.points.length) cfgBase ∧
    (⟨[[0], [1]], [], []⟩ : PartResult).pc.map
        (fun c => ((c.map (recOf cloudW9a) : List PointT) : Multiset PointT))
      = (⟨[[1], [0]], [], []⟩ : PartResult).pc.map
        (fun c =>
          ((c.map (recOf cloudW9b) : List PointT) : Multiset PointT)) :=
  permutation_determinism cloudW9a cloudW9b cfgBase [] [] _ _
    (by decide) (by decide) (by decide) (by decide) (by decide)

unseal Rat.add Rat.mul Rat.inv Rat.sub in
/-- C10: when the cloud is flagged dense the finiteness check is skipped
entirely -- the admitted set is determined by the admission filter alone,
with no reference to the finiteness flags -- and a point with a
non-finite coordinate can appear in an output cluster, as the dense
one-NaN-point cloud `cloudW10` shows. -/
theorem dense_skips_finiteness
    (cloud : Cloud) (indices : List ℕ) (cfg : Config)
    (hdense : cloud.is_dense = true) :
    admittedOf cloud indices cfg = indices.filter (fun i =>
      if cfg.filter_field_name = "" then true
      else thresholdKeep cfg
        (((dIdxOf cloud cfg).bind
          fun d => (recOf cloud i).fields.get? d).getD 0)) ∧
    applyPartition (some cloudW10) [0] cfgBase [] =
      some ⟨[[0]], [], []⟩ := by
  constructor
  · rw [admittedOf]
    refine List.filter_congr ?_
    intro i _
    rw [passesB, hdense, passRec]
    rw [if_neg (by simp)]
  · decide

unseal Rat.add Rat.mul Rat.inv Rat.sub in
/-- C10, witness: instantiating the dense-cloud statement on `cloudW10`
itself. -/
theorem dense_skips_finiteness_witness :
    admittedOf cloudW10 [0] cfgBase = [0].filter (fun i =>
      if cfgBase.filter_field_name = "" then true
      else thresholdKeep cfgBase
        (((dIdxOf cloudW10 cfgBase).bind
          fun d => (recOf cloudW10 i).fields.get? d).getD 0)) ∧
    applyPartition (some cloudW10) [0] cfgBase [] =
      some ⟨[[0]], [], []⟩ :=
  dense_skips_finiteness cloudW10 [0] cfgBase (by decide)

end Voxel
